import Mathlib

/-!
Verification development for the IMMOBILIER scraper (`src/IMMOBILIER/dataset.py`).

The Python module extracts structured real-estate listing fields from HTML
documents and drives a paginated crawl.  We embed the module shallowly:

* HTML documents (the BeautifulSoup tree, an external collaborator) are
  modelled as a tree of element and text nodes; the BeautifulSoup queries the
  code uses (`find(string=...)`, `find_all_next`, `find_parent`, `get_text`,
  `children`, `find_all`) are implemented over pre-order traversals of that
  tree, with node identity given by the node's path from the root.
* Python regexes used by the module are embedded as decidable matchers,
  one per concrete pattern, on lists of characters.  Case-insensitivity is
  modelled by folding ASCII and Latin-1 letters to lower case (the letters the
  patterns use).  Python `\s` is modelled as ASCII whitespace plus U+00A0.
* `NonValide` exceptions become `Except String`; functions that catch
  `NonValide` internally are total.
* The crawl controller becomes a state-passing function over an explicit
  `fetch : String → Option HNode` transport model (`none` = request error),
  with the page loop bounded by the `max_pages_safety` ceiling as in the code.
-/

deriving instance DecidableEq for Except

namespace Immo

/-! ## Characters and Python-like string primitives -/

/-- ASCII whitespace, as recognised by Python `str.split()` / `re` `\s`
(restricted to the ASCII range; the module's data only uses these). -/
def wsChar (c : Char) : Bool :=
  c == ' ' || c == '\t' || c == '\n' || c == '\r' || c == '\x0b' || c == '\x0c'

/-- The non-breaking space character U+00A0. -/
def nbsp : Char := '\u00A0'

/-- Characters stripped by Python `str.strip()` (whitespace incl. U+00A0). -/
def stripWs (c : Char) : Bool := wsChar c || c == nbsp

/-- Characters matched by Python `re` `\s` (Unicode mode includes U+00A0). -/
def reWs (c : Char) : Bool := wsChar c || c == nbsp

/-- Python `str.strip()` on a character list. -/
def stripL (cs : List Char) : List Char :=
  ((cs.dropWhile stripWs).reverse.dropWhile stripWs).reverse

/-- Python `str.strip()`. -/
def pyStrip (s : String) : String := String.mk (stripL s.data)

/-- Split into maximal runs of non-whitespace characters, as Python
`str.split()` (no argument) does; `acc` holds the current word reversed. -/
def wordsAux : List Char → List Char → List (List Char)
  | [], acc => if acc = [] then [] else [acc.reverse]
  | c :: cs, acc =>
    if wsChar c then
      if acc = [] then wordsAux cs [] else acc.reverse :: wordsAux cs []
    else wordsAux cs (c :: acc)

def wordsL (cs : List Char) : List (List Char) := wordsAux cs []

/-- `" ".join(words)` on character lists. -/
def joinSp : List (List Char) → List Char
  | [] => []
  | [w] => w
  | w :: ws => w ++ ' ' :: joinSp ws

/-- `_clean` on a character list: replace U+00A0 by a space, collapse
whitespace runs, trim (source lines 30–33). -/
def cleanL (cs : List Char) : List Char :=
  joinSp (wordsL (cs.map (fun c => if c == nbsp then ' ' else c)))

/-- `_clean(s)`: `s.replace("\xa0", " ")`, `" ".join(s.split())`, `strip()`. -/
def clean (s : String) : String := String.mk (cleanL s.data)

/-- Lower-case folding covering ASCII letters plus the Latin-1 letters that
appear in the module's patterns and data (models `str.lower` /
`re.IGNORECASE` on them). -/
def foldChar (c : Char) : Char :=
  if 'A' ≤ c && c ≤ 'Z' then Char.ofNat (c.toNat + 32)
  else if 0xC0 ≤ c.toNat && c.toNat ≤ 0xDE && c.toNat != 0xD7 then Char.ofNat (c.toNat + 32)
  else c

def foldL (cs : List Char) : List Char := cs.map foldChar

/-- Word characters for `re` `\b` (ASCII alphanumerics, underscore, and the
Latin-1 letters). -/
def isWordChar (c : Char) : Bool :=
  c.isAlphanum || c == '_' ||
    (0xC0 ≤ c.toNat && c.toNat ≤ 0xFF && c.toNat != 0xD7 && c.toNat != 0xF7)

/-- `needle.isPrefixOf (cs.drop i)`: an occurrence of `needle` in `cs`
starting at index `i`. -/
def isPrefixAt (needle cs : List Char) (i : Nat) : Bool :=
  needle.isPrefixOf (cs.drop i)

/-- Substring test (`needle in hay` in Python). -/
def hasSub (needle cs : List Char) : Bool :=
  (List.range (cs.length + 1)).any (isPrefixAt needle cs)

/-- Largest `i < n` with `p i` (scans downward); models `str.rfind`. -/
def lastHit (p : Nat → Bool) : Nat → Option Nat
  | 0 => none
  | n + 1 => if p n then some n else lastHit p n

/-- `loc.rfind(", ")` on a character list: the start index of the last
occurrence of `", "`, if any. -/
def rfindCS (cs : List Char) : Option Nat :=
  lastHit (isPrefixAt [',', ' '] cs) cs.length

/-- Numeric value of a digit string, as Python `int` (digits only). -/
def digitsVal (cs : List Char) : Nat :=
  cs.foldl (fun a c => 10 * a + (c.toNat - 48)) 0

/-- `re.sub(r"[^\d]", "", s)` keeps exactly the decimal digits, in order. -/
def digitsOnly (cs : List Char) : List Char := cs.filter Char.isDigit

/-! ## The document tree (model of the BeautifulSoup collaborator) -/

mutual
/-- A parsed HTML node: a text node or an element with a tag name,
attributes, and children. -/
inductive HNode where
  | text : String → HNode
  | elem : String → List (String × String) → HForest → HNode
  deriving DecidableEq
/-- A list of sibling nodes (mutual with `HNode` so that structural
recursion over the tree reduces definitionally). -/
inductive HForest where
  | fnil : HForest
  | fcons : HNode → HForest → HForest
  deriving DecidableEq
end

def HForest.toList : HForest → List HNode
  | .fnil => []
  | .fcons c cs => c :: cs.toList

/-- Build an element from a `List` of children (convenience constructor). -/
def el (name : String) (attrs : List (String × String)) (cs : List HNode) : HNode :=
  .elem name attrs (cs.foldr .fcons .fnil)

mutual
/-- All nodes of the subtree rooted at `n` (whose path from the document
root is `p`), in document (pre-)order, each with its path. -/
def occsN (p : List Nat) : HNode → List (List Nat × HNode)
  | .text s => [(p, .text s)]
  | .elem nm ats cs => (p, .elem nm ats cs) :: occsF p 0 cs
def occsF (p : List Nat) (i : Nat) : HForest → List (List Nat × HNode)
  | .fnil => []
  | .fcons c cs => occsN (p ++ [i]) c ++ occsF p (i + 1) cs
end

/-- All nodes of document `d` in document order, with their paths. -/
def occs (d : HNode) : List (List Nat × HNode) := occsN [] d

mutual
/-- All text strings of the subtree, in document order (BeautifulSoup
`.strings`; includes script/style text, as `get_text` does). -/
def stringsN : HNode → List String
  | .text s => [s]
  | .elem _ _ cs => stringsF cs
def stringsF : HForest → List String
  | .fnil => []
  | .fcons c cs => stringsN c ++ stringsF cs
end

/-- `node.get_text(" ", strip=True)`: strip each descendant string, drop the
empty ones, join with single spaces. -/
def getText (n : HNode) : String :=
  String.mk (joinSp (((stringsN n).map (fun s => stripL s.data)).filter (· ≠ [])))

/-- The node of `d` at path `p` (if the path exists). -/
def nodeAt (d : HNode) (p : List Nat) : Option HNode :=
  ((occs d).find? (fun q => q.1 == p)).map (·.2)

/-- The text-node occurrences of `d` in document order. -/
def textOccs (d : HNode) : List (List Nat × String) :=
  (occs d).filterMap (fun q => match q.2 with
    | .text s => some (q.1, s)
    | _ => none)

/-- `_is_visible_text_node` (source lines 36–43): the parent element exists
and is not `script`/`style`/`noscript`. -/
def visibleAt (d : HNode) (p : List Nat) : Bool :=
  if p = [] then false
  else match nodeAt d p.dropLast with
    | some (.elem n _ _) => !(n == "script" || n == "style" || n == "noscript")
    | _ => false

/-- `soup.find(string=pattern)`: the first text node (in document order)
whose text satisfies `pred`. -/
def findStr (d : HNode) (pred : String → Bool) : Option (List Nat × String) :=
  (textOccs d).find? (fun q => pred q.2)

/-- Nodes strictly after the node at path `p` in document order
(BeautifulSoup `next_elements`). -/
def occsAfter (d : HNode) (p : List Nat) : List (List Nat × HNode) :=
  ((occs d).dropWhile (fun q => q.1 != p)).drop 1

/-- Text-node occurrences strictly after the node at path `p`
(`find_all_next(string=...)` iterates these). -/
def textAfter (d : HNode) (p : List Nat) : List (List Nat × String) :=
  (occsAfter d p).filterMap (fun q => match q.2 with
    | .text s => some (q.1, s)
    | _ => none)

/-- Nearest-first proper ancestors of a path (parent, grandparent, …, root). -/
def ancestors (p : List Nat) : List (List Nat) :=
  (List.range p.length).map (fun k => p.take (p.length - 1 - k))

/-- The direct children of the node at path `q`. -/
def childNodes (d : HNode) (q : List Nat) : List HNode :=
  match nodeAt d q with
  | some (.elem _ _ cs) => cs.toList
  | _ => []

end Immo
namespace Immo

/-! ## The module's regex patterns as decidable matchers -/

/-- A label pattern, as used with `re.search` (in `find(string=...)`) and
`re.fullmatch`; both are `IGNORECASE` in the source. -/
structure Pat where
  search : String → Bool
  full : String → Bool

/-- Consume a literal prefix. -/
def eatPre (w : List Char) (cs : List Char) : Option (List Char) :=
  if w.isPrefixOf cs then some (cs.drop w.length) else none

/-- Consume `\s*` (greedy; sound here since every following literal starts
with a non-whitespace character). -/
def eatWs (cs : List Char) : List Char := cs.dropWhile reWs

/-- Consume `\s+`. -/
def eatWs1 (cs : List Char) : Option (List Char) :=
  match cs with
  | c :: rest => if reWs c then some (rest.dropWhile reWs) else none
  | [] => none

/-- Consume an optional single character (`x?`; sound here since the
following literal never starts with `x`). -/
def eatOpt (x : Char) (cs : List Char) : List Char :=
  match cs with
  | c :: rest => if c == x then rest else cs
  | [] => []

/-- A pattern given by alternative consumers over case-folded text:
`search` succeeds if some alternative matches at some start position,
`full` if some alternative consumes the whole string. -/
def patOfAlts (alts : List (List Char → Option (List Char))) : Pat where
  search s :=
    let cs := foldL s.data
    (List.range (cs.length + 1)).any (fun i => alts.any (fun a => (a (cs.drop i)).isSome))
  full s :=
    let cs := foldL s.data
    alts.any (fun a => a cs == some [])

/-- `r"Type"` (source line 228). -/
def typePat : Pat := patOfAlts [eatPre "type".data]

/-- `r"Surface"` (source line 237). -/
def surfacePat : Pat := patOfAlts [eatPre "surface".data]

/-- `r"Nb\.\s*de\s*pièces|Nombre\s+de\s*pièces"` (source line 246). -/
def piecesPat : Pat := patOfAlts
  [ fun cs => do
      let cs ← eatPre "nb.".data cs
      let cs ← eatPre "de".data (eatWs cs)
      eatPre "pièces".data (eatWs cs),
    fun cs => do
      let cs ← eatPre "nombre".data cs
      let cs ← eatWs1 cs
      let cs ← eatPre "de".data cs
      eatPre "pièces".data (eatWs cs) ]

/-- `r"Nb\.\s*de\s*chambres|Nombre\s+de\s*chambres"` (source line 255). -/
def chambresPat : Pat := patOfAlts
  [ fun cs => do
      let cs ← eatPre "nb.".data cs
      let cs ← eatPre "de".data (eatWs cs)
      eatPre "chambres".data (eatWs cs),
    fun cs => do
      let cs ← eatPre "nombre".data cs
      let cs ← eatWs1 cs
      let cs ← eatPre "de".data cs
      eatPre "chambres".data (eatWs cs) ]

/-- `r"Nb\.\s*de\s*salles?\s*de\s*bains?"` (source line 264). -/
def sdbPat : Pat := patOfAlts
  [ fun cs => do
      let cs ← eatPre "nb.".data cs
      let cs ← eatPre "de".data (eatWs cs)
      let cs ← eatPre "salle".data (eatWs cs)
      let cs ← eatPre "de".data (eatWs (eatOpt 's' cs))
      let cs ← eatPre "bain".data (eatWs cs)
      some (eatOpt 's' cs) ]

/-- `r"DEP|DPE|Consommation\s+d'?énergie"` (source line 273). -/
def dpePat : Pat := patOfAlts
  [ eatPre "dep".data,
    eatPre "dpe".data,
    fun cs => do
      let cs ← eatPre "consommation".data cs
      let cs ← eatWs1 cs
      let cs ← eatPre "d".data cs
      eatPre "énergie".data (eatOpt '\'' cs) ]

/-- `re.search(r"\bà vendre\b", s, IGNORECASE)` (source lines 71, 107):
an occurrence of "à vendre" with non-word characters (or ends) around it. -/
def aVendreSearch (s : String) : Bool :=
  let cs := foldL s.data
  let w := "à vendre".data
  (List.range (cs.length + 1)).any (fun i =>
    isPrefixAt w cs i &&
    (decide (i = 0) || !isWordChar (cs.getD (i - 1) 'x')) &&
    (decide (cs.length ≤ i + w.length) || !isWordChar (cs.getD (i + w.length) 'x')))

/-- `re.search(r"€\s*[\d\s ]+|[\d\s ]+€", s)` (source line 72):
a euro sign directly adjacent (on either side) to a digit/whitespace/U+00A0
character. -/
def euroSearch (s : String) : Bool :=
  let cs := s.data
  let cls := fun (c : Char) => c.isDigit || reWs c
  (List.range cs.length).any (fun i =>
    (cs.getD i 'x' == '€' && cls (cs.getD (i + 1) 'x')) ||
    (cls (cs.getD i 'x') && cs.getD (i + 1) 'x' == '€'))

/-- `re.search(r"France,\s", s, IGNORECASE)` (source line 106). -/
def locSearch (s : String) : Bool :=
  let cs := foldL s.data
  (List.range (cs.length + 1)).any (fun i =>
    isPrefixAt "france,".data cs i && reWs (cs.getD (i + 7) 'x'))

/-- `re.search(r"Détails\s+De\s+La\s+Propriété", s, IGNORECASE)`
(source line 147). -/
def detailsSearch (s : String) : Bool :=
  let cs := foldL s.data
  let alt := fun cs => do
      let cs ← eatPre "détails".data cs
      let cs ← eatWs1 cs
      let cs ← eatPre "de".data cs
      let cs ← eatWs1 cs
      let cs ← eatPre "la".data cs
      let cs ← eatWs1 cs
      eatPre "propriété".data cs
  (List.range (cs.length + 1)).any (fun i => (alt (cs.drop i)).isSome)

/-- `re.search(r"Caractéristiques", s, IGNORECASE)` (source line 148). -/
def caracSearch (s : String) : Bool :=
  hasSub "caractéristiques".data (foldL s.data)

/-- `re.search(r"\b([A-G])\b", s, IGNORECASE)` (source line 280): the first
single letter A–G delimited by word boundaries, upper-cased. -/
def findAG (s : String) : Option Char :=
  let cs := s.data
  let ag := fun (c : Char) => ('A' ≤ c && c ≤ 'G') || ('a' ≤ c && c ≤ 'g')
  ((List.range cs.length).find? (fun i =>
      ag (cs.getD i 'x') &&
      (decide (i = 0) || !isWordChar (cs.getD (i - 1) 'x')) &&
      (decide (cs.length ≤ i + 1) || !isWordChar (cs.getD (i + 1) 'x')))).map
    (fun i =>
      let c := cs.getD i 'x'
      if 'a' ≤ c && c ≤ 'z' then Char.ofNat (c.toNat - 32) else c)

/-- `_AD_URL_RE.search(href)` for `r"/annonce-[^/]+/\d+"` IGNORECASE
(source line 302): `/annonce-`, a nonempty run without `/`, then `/` and a
digit. -/
def adUrlSearch (href : String) : Bool :=
  let cs := foldL href.data
  (List.range (cs.length + 1)).any (fun i =>
    match eatPre "/annonce-".data (cs.drop i) with
    | none => false
    | some rest =>
      let seg := rest.takeWhile (fun c => c != '/')
      decide (seg ≠ []) &&
        (match rest.drop seg.length with
         | '/' :: d :: _ => d.isDigit
         | _ => false))

/-- `re.search(r"\bnext\b", s, IGNORECASE)` (source line 327). -/
def nextWordSearch (s : String) : Bool :=
  let cs := foldL s.data
  let w := "next".data
  (List.range (cs.length + 1)).any (fun i =>
    isPrefixAt w cs i &&
    (decide (i = 0) || !isWordChar (cs.getD (i - 1) 'x')) &&
    (decide (cs.length ≤ i + w.length) || !isWordChar (cs.getD (i + w.length) 'x')))

end Immo
namespace Immo

/-! ## Field extractors -/

/-- The `find_price_text` helper inside `prix` (source lines 75–83): if the
"à vendre" marker exists, the first visible euro-pattern text node after it;
otherwise (or if that search finds nothing) the first visible euro-pattern
text node of the whole document. -/
def find_price_text (d : HNode) : Option String :=
  let globalHit := (textOccs d).find? (fun q => euroSearch q.2 && visibleAt d q.1)
  match findStr d aVendreSearch with
  | some (mp, _) =>
    match (textAfter d mp).find? (fun q => euroSearch q.2 && visibleAt d q.1) with
    | some q => some q.2
    | none => globalHit.map (·.2)
  | none => globalHit.map (·.2)

/-- `prix` (source lines 66–97): fail if no visible euro text node, if the
text has no digits, or if the value is below 10000; otherwise the digit
string of the node's text. -/
def prix (d : HNode) : Except String String :=
  match find_price_text d with
  | none => .error "Prix introuvable sur la page."
  | some t =>
    let raw := stripL t.data
    let digits := digitsOnly raw
    if digits = [] then .error "Prix illisible"
    else if digitsVal digits < 10000 then .error "Annonce rejetée : prix < 10 000"
    else .ok (String.mk digits)

/-- The candidate filter inside `ville` (source lines 119–124): no
`http` / `"url"` / brace fragment, and at least 3 commas. -/
def goodCand (t : String) : Bool :=
  !(hasSub "http".data t.data) && !(hasSub "\"url\"".data t.data) &&
  !(t.data.contains '\x7b') && !(t.data.contains '\x7d') &&
  decide (3 ≤ t.data.count ',')

/-- The candidate texts collected by `ville` (source lines 109–128): visible
locale-marker matches (after the "à vendre" marker when present), cleaned,
filtered, at most 10. -/
def villeCandidates (d : HNode) : List String :=
  let base : List (List Nat × String) := match findStr d aVendreSearch with
    | some (mp, _) => (textAfter d mp).filter (fun q => locSearch q.2)
    | none => (textOccs d).filter (fun q => locSearch q.2)
  (((base.filter (fun q => visibleAt d q.1)).map (fun q => clean q.2)).filter
      goodCand).take 10

/-- `min(candidates, key=len)`: the first candidate of minimal length. -/
def chooseMin (c : String) (rest : List String) : String :=
  rest.foldl (fun b x => if x.length < b.length then x else b) c

/-- `ville` (source lines 100–139): shortest qualifying candidate, city is
the substring after the last `", "`. -/
def ville (d : HNode) : Except String String :=
  match villeCandidates d with
  | [] => .error "Localisation introuvable (donc ville introuvable)."
  | c :: rest =>
    let loc := chooseMin c rest
    match rfindCS loc.data with
    | none => .error "Format de localisation inattendu"
    | some i =>
      if loc.data.length ≤ i + 2 then .error "Format de localisation inattendu"
      else .ok (pyStrip (String.mk (loc.data.drop (i + 2))))

/-! ## Characteristics-block locator -/

/-- The keyword set scored by `caracteristiques` (source lines 161–163). -/
def caracKeywords : List String :=
  ["type", "surface", "nb. de pièces", "nb. de chambres",
   "nb. de salles de bains", "dep", "dpe"]

/-- The score of a node: how many keywords occur in its cleaned, folded
subtree text (source lines 160–163). -/
def blobScore (n : HNode) : Nat :=
  caracKeywords.countP (fun k => hasSub k.data (foldL (cleanL (getText n).data)))

/-- The score of the node at a path (paths produced by the locator always
exist; missing paths score 0). -/
def scoreAt (d : HNode) (p : List Nat) : Nat :=
  match nodeAt d p with
  | some n => blobScore n
  | none => 0

/-- The ancestor walk of `caracteristiques` (source lines 156–166): starting
from path `p`, up to `fuel` levels, return the first node scoring ≥ 3; stop
at the root (whose parent is `None`). -/
def climb (d : HNode) : Nat → List Nat → Option (List Nat)
  | 0, _ => none
  | fuel + 1, p =>
    if 3 ≤ scoreAt d p then some p
    else if p = [] then none
    else climb d fuel p.dropLast

/-- One header-pattern attempt of `caracteristiques`: the ancestor walk
from the first text match of `pred`, or `none` when the pattern does not
match (or the match has no parent, or no ancestor reaches the threshold). -/
def caracFrom (d : HNode) (pred : String → Bool) : Option (List Nat) :=
  match findStr d pred with
  | some (p, _) => if p = [] then none else climb d 7 p.dropLast
  | none => none

/-- `caracteristiques` (source lines 141–168): for the first match of each
header pattern in order, climb at most 7 ancestor levels; fall back to the
whole document (path `[]`). -/
def caracteristiques (d : HNode) : List Nat :=
  match caracFrom d detailsSearch with
  | some r => r
  | none =>
    match caracFrom d caracSearch with
    | some r => r
    | none => []

/-! ## The shared field-value extractor -/

/-- `root.find(string=pattern)` restricted to the subtree at `root` (proper
descendants), in document order. -/
def findUnder (d : HNode) (root : List Nat) (pat : Pat) : Option (List Nat × String) :=
  (textOccs d).find? (fun q => root.isPrefixOf q.1 && q.1 != root && pat.search q.2)

/-- `label_tag.find_parent("tr")`: the nearest ancestor element named `tr`. -/
def ancestorTr (d : HNode) (p : List Nat) : Option (List Nat) :=
  (ancestors p).find? (fun q =>
    match nodeAt d q with
    | some (.elem n _ _) => n == "tr"
    | _ => false)

/-- The cleaned texts of the `td`/`th` cells under the row at `tp`
(source lines 183–184). -/
def cellTexts (d : HNode) (tp : List Nat) : List String :=
  ((occs d).filter (fun q =>
      tp.isPrefixOf q.1 && q.1 != tp &&
      (match q.2 with
       | .elem n _ _ => n == "td" || n == "th"
       | _ => false))).map
    (fun q => clean (getText q.2))

/-- The first loop of the table-row branch (source lines 185–188): the cell
after the first cell that full-matches the label pattern, when that matching
cell is not the last. -/
def trNextCell (texts : List String) (pat : Pat) : Option String :=
  ((List.range texts.length).find? (fun i =>
      pat.full (texts.getD i "") && decide (i + 1 < texts.length))).map
    (fun i => texts.getD (i + 1) "")

/-- The sibling branch (source lines 193–201): among the children of the
label tag's parent that come after the label tag, the first whose cleaned
text is nonempty and does not full-match the pattern. -/
def sibValue (d : HNode) (ltag : List Nat) (pat : Pat) : Option String :=
  if ltag = [] then none
  else
    let after := (childNodes d ltag.dropLast).drop (ltag.getLastD 0 + 1)
    (after.map (fun c => clean (getText c))).find?
      (fun t => t != "" && !(pat.full t))

/-- The document-order fallback (source lines 203–209): the first visible
text after the label tag whose cleaned text is nonempty and does not
full-match the pattern. -/
def nextTextValue (d : HNode) (ltag : List Nat) (pat : Pat) : Option String :=
  (((textAfter d ltag).filter (fun q => visibleAt d q.1)).map
      (fun q => clean q.2)).find?
    (fun t => t != "" && !(pat.full t))

/-- `_extract_value` (source lines 171–211). -/
def extract_value (d : HNode) (root : List Nat) (pat : Pat) : Except String String :=
  match findUnder d root pat with
  | none => .error "Champ introuvable"
  | some (p, _) =>
    let ltag := p.dropLast
    let viaTr :=
      match ancestorTr d ltag with
      | none => none
      | some tp =>
        let texts := cellTexts d tp
        match trNextCell texts pat with
        | some v => some v
        | none => texts.reverse.find? (fun t => t != "")
    match viaTr with
    | some v => .ok v
    | none =>
      match sibValue d ltag pat with
      | some v => .ok v
      | none =>
        match nextTextValue d ltag pat with
        | some v => .ok v
        | none => .error "Valeur introuvable"

/-! ## Per-attribute extractors and the pipeline -/

/-- `_digits_or_dash` (source lines 214–219). -/
def digits_or_dash (value : String) : String :=
  let v := clean value
  if v == "-" || v == "" then "-"
  else
    let dl := digitsOnly v.data
    if dl = [] then "-" else String.mk dl

/-- `type` (source lines 222–231): fatal unless the cleaned value is exactly
"Maison" or "Appartement". -/
def type (d : HNode) : Except String String :=
  match extract_value d (caracteristiques d) typePat with
  | .error e => .error e
  | .ok raw =>
    let t := clean raw
    if t == "Maison" || t == "Appartement" then .ok t
    else .error "Type non autorisé"

/-- `surface` (source lines 234–240): degrades to "-" on failure. -/
def surface (d : HNode) : String :=
  match extract_value d (caracteristiques d) surfacePat with
  | .ok raw => digits_or_dash raw
  | .error _ => "-"

/-- `nbrpieces` (source lines 243–249). -/
def nbrpieces (d : HNode) : String :=
  match extract_value d (caracteristiques d) piecesPat with
  | .ok raw => digits_or_dash raw
  | .error _ => "-"

/-- `nbrchambres` (source lines 252–258). -/
def nbrchambres (d : HNode) : String :=
  match extract_value d (caracteristiques d) chambresPat with
  | .ok raw => digits_or_dash raw
  | .error _ => "-"

/-- `nbrsdb` (source lines 261–267). -/
def nbrsdb (d : HNode) : String :=
  match extract_value d (caracteristiques d) sdbPat with
  | .ok raw => digits_or_dash raw
  | .error _ => "-"

/-- `dpe` (source lines 270–281): degrades to "-" on failure; extracts a
single A–G letter when present, else returns the cleaned raw value. -/
def dpe (d : HNode) : String :=
  match extract_value d (caracteristiques d) dpePat with
  | .error _ => "-"
  | .ok raw0 =>
    let raw := clean raw0
    if raw == "-" || raw == "" then "-"
    else match findAG raw with
      | some c => String.mk [c]
      | none => raw

/-- `informations_fields` (source lines 284–294): the extractors run in the
source's order (`ville`, `type`, the four optional ones, `dpe`, `prix`);
the first `NonValide` from `ville`, `type` or `prix` aborts. -/
def informations_fields (d : HNode) : Except String (List String) :=
  match ville d with
  | .error e => .error e
  | .ok v =>
    match type d with
    | .error e => .error e
    | .ok t =>
      let s := surface d
      let np := nbrpieces d
      let nc := nbrchambres d
      let nb := nbrsdb d
      let dp := dpe d
      match prix d with
      | .error e => .error e
      | .ok p => .ok [v, t, s, np, nc, nb, dp, p]

end Immo
namespace Immo

/-! ## URL discovery and the crawl controller -/

/-- The `href` values of all `a` elements with an `href` attribute, in
document order (`soup.find_all("a", href=True)`). -/
def hrefsOf (d : HNode) : List String :=
  (occs d).filterMap (fun q => match q.2 with
    | .elem "a" attrs _ => attrs.lookup "href"
    | _ => none)

/-- The `a` elements with an `href` attribute, with their attributes and
subtree, in document order. -/
def aElems (d : HNode) : List (List (String × String) × HNode) :=
  (occs d).filterMap (fun q => match q.2 with
    | .elem "a" attrs _ =>
      match attrs.lookup "href" with
      | some _ => some (attrs, q.2)
      | none => none
    | _ => none)

/-- Model of `urllib.parse.urljoin` (an external library), for the URL
shapes this crawler uses: absolute references win; references starting with
`/` replace the base path; other references replace the last base path
segment.  No dot-segment normalisation. -/
def urljoin (base rel : String) : String :=
  let b := base.data
  let r := rel.data
  if r = [] then base
  else if hasSub "://".data r then rel
  else
    match (List.range (b.length + 1)).find? (isPrefixAt "://".data b) with
    | none => rel
    | some i =>
      let hostLen := ((b.drop (i + 3)).takeWhile (fun c => c != '/')).length
      let root := b.take (i + 3 + hostLen)
      if r.headD 'x' == '/' then String.mk (root ++ r)
      else
        let path := b.drop (i + 3 + hostLen)
        let dir := match lastHit (fun j => path.getD j 'x' == '/') path.length with
          | some j => path.take (j + 1)
          | none => ['/']
        String.mk (root ++ dir ++ r)

/-- `extract_ad_urls` (source lines 311–320): resolve and collect (as a set,
here a duplicate-free list in first-seen order) the hrefs whose raw text
matches the ad-URL regex. -/
def extract_ad_urls (d : HNode) (pageUrl : String) : List String :=
  (hrefsOf d).foldl
    (fun acc h =>
      if adUrlSearch h then
        let u := urljoin pageUrl h
        if acc.contains u then acc else acc ++ [u]
      else acc)
    []

/-- The path component of a URL (scheme and host removed, query/fragment
dropped); used only to state the spec's version of ad-link discovery. -/
def pathOf (u : String) : String :=
  let cs := u.data
  match (List.range (cs.length + 1)).find? (isPrefixAt "://".data cs) with
  | some i =>
    String.mk (((cs.drop (i + 3)).dropWhile (fun c => c != '/')).takeWhile
      (fun c => c != '?' && c != '#'))
  | none => String.mk (cs.takeWhile (fun c => c != '?' && c != '#'))

/-- The spec's contract for ad-link discovery, stated from its words
(§4.6: "resolves relative targets against `pageURL`, and keeps those whose
resolved path matches an ad-detail path shape"); to be compared with
`extract_ad_urls`, which filters on the raw href instead. -/
def spec_discover_ad_links (d : HNode) (pageUrl : String) : List String :=
  (hrefsOf d).foldl
    (fun acc h =>
      let u := urljoin pageUrl h
      if adUrlSearch (pathOf u) then
        if acc.contains u then acc else acc ++ [u]
      else acc)
    []

/-- `find_next_page_url` (source lines 323–341): a link with `rel` matching
`next`, else the first link whose text contains "suivant", else the first
link whose class/id contain "next". -/
def find_next_page_url (d : HNode) (pageUrl : String) : Option String :=
  let withHref := fun (a : List (String × String) × HNode) =>
    ((a.1.lookup "href").getD "")
  let relHit := (aElems d).find? (fun a =>
    nextWordSearch ((a.1.lookup "rel").getD ""))
  let fromText : Option String :=
    match (aElems d).find? (fun a =>
        hasSub "suivant".data (foldL (getText a.2).data)) with
    | some a => some (urljoin pageUrl (withHref a))
    | none =>
      match (aElems d).find? (fun a =>
          hasSub "next".data (foldL (((a.1.lookup "class").getD "") ++ " " ++
            ((a.1.lookup "id").getD "")).data)) with
      | some a => some (urljoin pageUrl (withHref a))
      | none => none
  match relHit with
  | some a =>
    if withHref a != "" then some (urljoin pageUrl (withHref a)) else fromText
  | none => fromText

/-- Insertion sort on strings (Python `sorted` over the URL set; Python
compares strings by code points, which is exactly the lexicographic order
on the character lists). -/
def insortStr (s : String) : List String → List String
  | [] => [s]
  | t :: ts => if s.data < t.data then s :: t :: ts else t :: insortStr s ts

def sortStrs (l : List String) : List String := l.foldr insortStr []

/-- The crawl run's mutable state (source lines 358–361): the shared
visited set, the rows written after the header, the counters, plus the log
of ad URLs passed to `getsoup` in the ad loop, and whether an uncaught
listing-page fault aborted the run. -/
structure CrawlState where
  seen : List String
  rows : List (List String)
  adFetches : List String
  total : Nat
  valid : Nat
  skipped : Nat
  aborted : Bool
  deriving DecidableEq

def initState : CrawlState := ⟨[], [], [], 0, 0, 0, false⟩

/-- The body of the per-ad loop (source lines 388–412): skip already-seen
URLs without fetching; otherwise mark seen, fetch, run the pipeline, and
append the row on success; any per-ad fault is counted and skipped. -/
def processAd (fetch : String → Option HNode) (st : CrawlState) (u : String) :
    CrawlState :=
  if st.seen.contains u then st
  else
    let st1 := { st with
      seen := u :: st.seen,
      total := st.total + 1,
      adFetches := st.adFetches ++ [u] }
    match fetch u with
    | none => { st1 with skipped := st1.skipped + 1 }
    | some doc =>
      match informations_fields doc with
      | .ok row => { st1 with rows := st1.rows ++ [row], valid := st1.valid + 1 }
      | .error _ => { st1 with skipped := st1.skipped + 1 }

/-- The per-section page loop (source lines 376–415), with the remaining
page budget (`max_pages_safety` minus pages seen) as fuel: fetch the listing
page (an uncaught fault aborts the whole run), process its ad URLs in sorted
order, follow the next-page link. -/
def crawl_section (fetch : String → Option HNode) :
    Nat → String → CrawlState → CrawlState
  | 0, _, st => st
  | fuel + 1, pageUrl, st =>
    match fetch pageUrl with
    | none => { st with aborted := true }
    | some psoup =>
      let st1 := (sortStrs (extract_ad_urls psoup pageUrl)).foldl
        (processAd fetch) st
      match find_next_page_url psoup pageUrl with
      | none => st1
      | some nxt => crawl_section fetch fuel nxt st1

/-- The start URLs of the crawl (source lines 305–308). -/
def START_URLS_IDF : List String :=
  ["https://ile-de-france.immo-entre-particuliers.com/annonces/france-ile-de-france/vente/maison/",
   "https://ile-de-france.immo-entre-particuliers.com/annonces/france-ile-de-france/vente/appartement/"]

/-- `scrape_idf_sales_to_csv` (source lines 344–419): process the start
sections sequentially against one shared state; an aborted run (uncaught
listing-page fault) stops everything. -/
def scrape_idf_sales_to_csv (fetch : String → Option HNode)
    (max_pages_safety : Nat) (start_urls : List String) : CrawlState :=
  start_urls.foldl
    (fun st u => if st.aborted then st else crawl_section fetch max_pages_safety u st)
    initState

end Immo
namespace Immo

/-! ## Concrete demonstration documents (used by witnesses) -/

/-- A complete, valid ad document: marker, locality, type/surface table,
price; no DPE, room or bathroom labels. -/
def demoAd : HNode :=
  el "[document]" [] [
    el "body" [] [
      .text "Maison à vendre",
      .text "A, B, C, France, Paris",
      el "table" [] [
        el "tr" [] [el "td" [] [.text "Type"], el "td" [] [.text "Maison"]],
        el "tr" [] [el "td" [] [.text "Surface"], el "td" [] [.text "85 m²"]]],
      .text "250 000 €"]]

/-- An ad document whose price text node also carries a reference number. -/
def demoRef : HNode :=
  el "[document]" [] [
    .text "Villa à vendre",
    .text "Ref 789 - 250 000 €"]

/-- A table row whose only cell is the label itself. -/
def demoRow : HNode :=
  el "[document]" [] [
    el "table" [] [el "tr" [] [el "td" [] [.text "Type"]]]]

/-- A characteristics block under a "Caractéristiques" header. -/
def demoCarac : HNode :=
  el "[document]" [] [
    el "div" [] [
      el "h2" [] [.text "Caractéristiques"],
      el "table" [] [
        el "tr" [] [el "td" [] [.text "Type"], el "td" [] [.text "Maison"]],
        el "tr" [] [el "td" [] [.text "Surface"], el "td" [] [.text "85"]],
        el "tr" [] [el "td" [] [.text "Nb. de pièces"], el "td" [] [.text "4"]]]]]

/-- A listing page with two distinct ad links (one duplicated) and a
rel=next pagination link. -/
def demoListing : HNode :=
  el "[document]" [] [
    el "a" [("href", "/annonce-a/1")] [.text "ad"],
    el "a" [("href", "/annonce-a/1")] [.text "dup"],
    el "a" [("href", "/annonce-b/2")] [.text "ad2"],
    el "a" [("href", "/page2"), ("rel", "next")] [.text "Suivant"]]

/-- A listing page with a single relative ad link and no pagination. -/
def demoRelListing : HNode :=
  el "[document]" [] [
    el "a" [("href", "annonce-maison-paris/12345")] [.text "ad"]]

/-- A transport model: one listing page serving one valid ad. -/
def demoFetch (u : String) : Option HNode :=
  if u = "https://s/p1" then some demoListing
  else if u = "https://s/annonce-a/1" then some demoAd
  else none

end Immo
namespace Immo

/-! ## Derived notions used only to state the claims -/

/-- Iterated `dropLast`: the `k`-th ancestor path. -/
def iterDropLast : Nat → List Nat → List Nat
  | 0, l => l
  | k + 1, l => iterDropLast k l.dropLast

/-- A nonempty all-digit string. -/
def digitStr (s : String) : Prop := s.data ≠ [] ∧ ∀ c ∈ s.data, c.isDigit = true

/-- A numeric field's shape: the sentinel "-" or a nonempty digit string. -/
def optDigit (s : String) : Prop := s = "-" ∨ digitStr s

/-- The invariant of an emitted record (spec §3): eight fields, whitelisted
type, digit-only price of value at least 10000 and never "-", numeric
optional fields digit-only or "-". -/
def validRecord (r : List String) : Prop :=
  ∃ v t s np nc nb dp p, r = [v, t, s, np, nc, nb, dp, p] ∧
    (t = "Maison" ∨ t = "Appartement") ∧
    digitStr p ∧ p ≠ "-" ∧ 10000 ≤ digitsVal p.data ∧
    optDigit s ∧ optDigit np ∧ optDigit nc ∧ optDigit nb

/-- The candidate `ville` selects (`min(candidates, key=len)`), or `""`
when there are no candidates (in which case `ville` fails before using
it). -/
def villeChosen (d : HNode) : String :=
  match villeCandidates d with
  | [] => ""
  | c :: rest => chooseMin c rest

/-- No two consecutive spaces (a structural property of `_clean` outputs). -/
def noTwoSpaces : List Char → Prop
  | [] => True
  | [_] => True
  | a :: b :: t => ¬(a = ' ' ∧ b = ' ') ∧ noTwoSpaces (b :: t)

/-! ## Theorems

Claims C1–C10 from the specification, one theorem per claim, with shared
helper lemmas first. -/

/-- Elements of `textAfter` are text occurrences of the document. -/
theorem textAfter_mem_textOccs {d : HNode} {p : List Nat}
    {q : List Nat × String} (h : q ∈ textAfter d p) : q ∈ textOccs d := by
  unfold textAfter at h
  rcases List.mem_filterMap.mp h with ⟨a, ha, hfa⟩
  have hsub : a ∈ occs d := by
    unfold occsAfter at ha
    have h1 : List.Sublist (((occs d).dropWhile (fun q => q.1 != p)).drop 1)
        ((occs d).dropWhile (fun q => q.1 != p)) := List.drop_sublist 1 _
    have h2 : List.Sublist ((occs d).dropWhile (fun q => q.1 != p)) (occs d) :=
      List.dropWhile_sublist _
    exact (h1.trans h2).subset ha
  unfold textOccs
  exact List.mem_filterMap.mpr ⟨a, hsub, hfa⟩

end Immo

namespace Immo

/-- C3, part of the proof: the success value of `type` is constrained. -/
theorem type_ok_mem {d : HNode} {s : String} (h : type d = .ok s) :
    s = "Maison" ∨ s = "Appartement" := by
  unfold type at h
  cases hx : extract_value d (caracteristiques d) typePat with
  | error e => rw [hx] at h; cases h
  | ok raw =>
    rw [hx] at h
    simp only at h
    split at h
    · rename_i hc
      cases h
      rcases Bool.or_eq_true_iff.mp hc with h1 | h1
      · exact Or.inl (eq_of_beq h1)
      · exact Or.inr (eq_of_beq h1)
    · cases h

/-- C3: for every document, `type` returns only the exact strings "Maison"
or "Appartement"; any other cleaned extracted value (and an extraction
failure) raises `NonValide`, which is fatal for the pipeline. -/
theorem type_whitelist_C3 (d : HNode) :
    (∀ s, type d = .ok s → s = "Maison" ∨ s = "Appartement")
  ∧ (∀ v, extract_value d (caracteristiques d) typePat = .ok v →
      clean v ≠ "Maison" → clean v ≠ "Appartement" → ∃ e, type d = .error e)
  ∧ (∀ e, extract_value d (caracteristiques d) typePat = .error e →
      type d = .error e)
  ∧ (∀ e, type d = .error e → ∃ e2, informations_fields d = .error e2) := by
  refine ⟨fun s h => type_ok_mem h, ?_, ?_, ?_⟩
  · intro v hv h1 h2
    refine ⟨"Type non autorisé", ?_⟩
    unfold type
    rw [hv]
    simp only
    split
    · rename_i hc
      rcases Bool.or_eq_true_iff.mp hc with h | h
      · exact absurd (eq_of_beq h) h1
      · exact absurd (eq_of_beq h) h2
    · rfl
  · intro e he
    unfold type
    rw [he]
  · intro e he
    unfold informations_fields
    cases hv : ville d with
    | error e2 => exact ⟨e2, rfl⟩
    | ok v => rw [he]; exact ⟨e, rfl⟩

/-- C3 witness: a concrete document with a non-whitelisted type value. -/
theorem type_whitelist_C3_w : ("Maison" : String) = "Maison" ∨ ("Maison" : String) = "Appartement" :=
  (type_whitelist_C3 demoAd).1 "Maison" (by decide)

end Immo
namespace Immo

/-- C2: the pipeline runs the extractors in the source's fixed order and
fails exactly when `ville`, `type` or `prix` fails (propagating the first
such failure); the optional extractors degrade to "-" on extraction failure
and never abort; on success the record lists the eight fields in order. -/
theorem pipeline_behavior_C2 (d : HNode) :
    ((∃ e, informations_fields d = .error e) ↔
      ((∃ e, ville d = .error e) ∨ (∃ e, type d = .error e) ∨
       (∃ e, prix d = .error e)))
  ∧ (∀ e, ville d = .error e → informations_fields d = .error e)
  ∧ (∀ v e, ville d = .ok v → type d = .error e →
      informations_fields d = .error e)
  ∧ (∀ v t e, ville d = .ok v → type d = .ok t → prix d = .error e →
      informations_fields d = .error e)
  ∧ (∀ e, extract_value d (caracteristiques d) surfacePat = .error e →
      surface d = "-")
  ∧ (∀ e, extract_value d (caracteristiques d) piecesPat = .error e →
      nbrpieces d = "-")
  ∧ (∀ e, extract_value d (caracteristiques d) chambresPat = .error e →
      nbrchambres d = "-")
  ∧ (∀ e, extract_value d (caracteristiques d) sdbPat = .error e →
      nbrsdb d = "-")
  ∧ (∀ e, extract_value d (caracteristiques d) dpePat = .error e →
      dpe d = "-")
  ∧ (∀ v t p, ville d = .ok v → type d = .ok t → prix d = .ok p →
      informations_fields d = .ok
        [v, t, surface d, nbrpieces d, nbrchambres d, nbrsdb d, dpe d, p]) := by
  refine ⟨?_, ?_, ?_, ?_, ?_, ?_, ?_, ?_, ?_, ?_⟩
  · constructor
    · intro ⟨e, he⟩
      unfold informations_fields at he
      cases hv : ville d with
      | error e2 => exact Or.inl ⟨e2, rfl⟩
      | ok v =>
        rw [hv] at he
        cases ht : type d with
        | error e2 => exact Or.inr (Or.inl ⟨e2, rfl⟩)
        | ok t =>
          rw [ht] at he
          cases hp : prix d with
          | error e2 => exact Or.inr (Or.inr ⟨e2, rfl⟩)
          | ok p => rw [hp] at he; cases he
    · intro h
      unfold informations_fields
      cases hv : ville d with
      | error e2 => exact ⟨e2, rfl⟩
      | ok v =>
        cases ht : type d with
        | error e2 => exact ⟨e2, rfl⟩
        | ok t =>
          cases hp : prix d with
          | error e2 => exact ⟨e2, rfl⟩
          | ok p =>
            exfalso
            rcases h with ⟨e, he⟩ | ⟨e, he⟩ | ⟨e, he⟩
            · rw [hv] at he; cases he
            · rw [ht] at he; cases he
            · rw [hp] at he; cases he
  · intro e he; unfold informations_fields; rw [he]
  · intro v e hv he; unfold informations_fields; rw [hv, he]
  · intro v t e hv ht he; unfold informations_fields; rw [hv, ht, he]
  · intro e he; unfold surface; rw [he]
  · intro e he; unfold nbrpieces; rw [he]
  · intro e he; unfold nbrchambres; rw [he]
  · intro e he; unfold nbrsdb; rw [he]
  · intro e he; unfold dpe; rw [he]
  · intro v t p hv ht hp; unfold informations_fields; rw [hv, ht, hp]

/-- C2 witness: the demonstration ad has no DPE (or room) labels, yet the
pipeline yields a complete record with EnergyRating "-". -/
theorem pipeline_behavior_C2_w :
    informations_fields demoAd =
      .ok ["Paris", "Maison", "85", "-", "-", "-", "-", "250000"] := by
  have h := (pipeline_behavior_C2 demoAd).2.2.2.2.2.2.2.2.2 "Paris" "Maison"
    "250000" (by decide) (by decide) (by decide)
  rw [h]
  decide

end Immo
namespace Immo

/-- Dropping a whitespace prefix does not change the digits of a string. -/
theorem filter_dropWhile_digits (cs : List Char) :
    (cs.dropWhile stripWs).filter Char.isDigit = cs.filter Char.isDigit := by
  induction cs with
  | nil => rfl
  | cons c t ih =>
    by_cases h : stripWs c = true
    · have hd : Char.isDigit c = false := by
        unfold stripWs wsChar at h
        simp only [Bool.or_eq_true, beq_iff_eq] at h
        rcases h with (((((h | h) | h) | h) | h) | h) | h <;> subst h <;> rfl
      rw [List.dropWhile_cons_of_pos h, ih, List.filter_cons_of_neg (by simp [hd])]
    · rw [List.dropWhile_cons_of_neg (by simp [h])]

/-- Stripping surrounding whitespace does not change the digits. -/
theorem stripL_digits (cs : List Char) :
    digitsOnly (stripL cs) = digitsOnly cs := by
  unfold stripL digitsOnly
  rw [List.filter_reverse, filter_dropWhile_digits, ← List.filter_reverse,
    List.reverse_reverse, filter_dropWhile_digits]

/-- `find_price_text` returns `none` exactly when the document has no
visible euro-pattern text node at all: the anchored search only restricts
the global one, and the code falls back to the global scan. -/
theorem find_price_text_none_iff (d : HNode) :
    find_price_text d = none ↔
      (textOccs d).find? (fun q => euroSearch q.2 && visibleAt d q.1) = none := by
  unfold find_price_text
  cases hm : findStr d aVendreSearch with
  | none =>
    simp only
    constructor
    · intro h
      cases hg : (textOccs d).find? (fun q => euroSearch q.2 && visibleAt d q.1) with
      | none => rfl
      | some q => rw [hg] at h; cases h
    · intro h; rw [h]; rfl
  | some mq =>
    rcases mq with ⟨mp, ms⟩
    simp only
    cases ha : (textAfter d mp).find? (fun q => euroSearch q.2 && visibleAt d q.1) with
    | some q =>
      constructor
      · intro h; cases h
      · intro h
        exfalso
        have hq := List.find?_some ha
        have hmem := List.mem_of_find?_eq_some ha
        have hnone := List.find?_eq_none.mp h q (textAfter_mem_textOccs hmem)
        exact hnone hq
    | none =>
      constructor
      · intro h
        cases hg : (textOccs d).find? (fun q => euroSearch q.2 && visibleAt d q.1) with
        | none => rfl
        | some q => rw [hg] at h; cases h
      · intro h; rw [h]; rfl

/-- C1: `prix` fails exactly when there is no visible euro-pattern text
node, when the matched node's text contains no digit, or when its digit
value is below 10000; otherwise it returns the digit-only string of the
matched node's text. -/
theorem prix_spec_C1 (d : HNode) :
    ((∃ e, prix d = .error e) ↔
      ((∀ q ∈ textOccs d, ¬(euroSearch q.2 = true ∧ visibleAt d q.1 = true)) ∨
       (∃ t, find_price_text d = some t ∧
         (digitsOnly t.data = [] ∨ digitsVal (digitsOnly t.data) < 10000))))
  ∧ (∀ t, find_price_text d = some t → digitsOnly t.data ≠ [] →
      10000 ≤ digitsVal (digitsOnly t.data) →
      prix d = .ok (String.mk (digitsOnly t.data))) := by
  constructor
  · constructor
    · intro ⟨e, he⟩
      unfold prix at he
      cases hf : find_price_text d with
      | none =>
        left
        intro q hq hpred
        have hnone := (find_price_text_none_iff d).mp hf
        have := List.find?_eq_none.mp hnone q hq
        rw [hpred.1, hpred.2] at this
        exact this rfl
      | some t =>
        right
        refine ⟨t, rfl, ?_⟩
        rw [hf] at he
        simp only at he
        rw [stripL_digits] at he
        by_cases h1 : digitsOnly t.data = []
        · exact Or.inl h1
        · rw [if_neg h1] at he
          by_cases h2 : digitsVal (digitsOnly t.data) < 10000
          · exact Or.inr h2
          · rw [if_neg h2] at he; cases he
    · intro h
      unfold prix
      cases hf : find_price_text d with
      | none => exact ⟨"Prix introuvable sur la page.", rfl⟩
      | some t =>
        simp only
        rw [stripL_digits]
        rcases h with h | ⟨t2, ht2, h⟩
        · exfalso
          have hnone := (find_price_text_none_iff d).mpr
            (List.find?_eq_none.mpr (fun q hq => by
              have := h q hq
              by_cases h1 : euroSearch q.2 = true
              · by_cases h2 : visibleAt d q.1 = true
                · exact absurd ⟨h1, h2⟩ this
                · simp [h1, h2]
              · simp [h1]))
          rw [hf] at hnone; cases hnone
        · rw [hf] at ht2
          cases ht2
          rcases h with h | h
          · rw [if_pos h]; exact ⟨_, rfl⟩
          · by_cases hx : digitsOnly t.data = []
            · rw [if_pos hx]; exact ⟨_, rfl⟩
            · rw [if_neg hx, if_pos h]; exact ⟨_, rfl⟩
  · intro t hf h1 h2
    unfold prix
    rw [hf]
    simp only
    rw [stripL_digits, if_neg h1, if_neg (by omega)]

/-- C1 witness. -/
theorem prix_spec_C1_w : prix demoAd = .ok (String.mk (digitsOnly "250 000 €".data)) :=
  (prix_spec_C1 demoAd).2 "250 000 €" (by decide) (by decide) (by decide)

/-- C10: the digit string `prix` returns is formed from the whole text of
the matched node, every digit of the node's text included, not just the
euro-amount match. -/
theorem prix_whole_node_C10 (d : HNode) :
    ∀ t s, find_price_text d = some t → prix d = .ok s →
      s = String.mk (t.data.filter Char.isDigit) := by
  intro t s hf hp
  unfold prix at hp
  rw [hf] at hp
  simp only at hp
  rw [stripL_digits] at hp
  by_cases h1 : digitsOnly t.data = []
  · rw [if_pos h1] at hp; cases hp
  · rw [if_neg h1] at hp
    by_cases h2 : digitsVal (digitsOnly t.data) < 10000
    · rw [if_pos h2] at hp; cases hp
    · rw [if_neg h2] at hp
      cases hp
      rfl

/-- C10 witness: the matched node "Ref 789 - 250 000 €" contributes its
reference digits to the returned price. -/
theorem prix_whole_node_C10_w :
    ("789250000" : String) = String.mk ("Ref 789 - 250 000 €".data.filter Char.isDigit) :=
  prix_whole_node_C10 demoRef "Ref 789 - 250 000 €" "789250000" (by decide) (by decide)

end Immo
namespace Immo

/-- C9: in the table-row branch of `_extract_value`, when the row has a
non-empty cell but no cell that full-matches the label pattern is followed
by a further cell (in particular when the matching cell is last), the
extractor returns the row's last non-empty cell text — possibly the label
text itself. -/
theorem extract_value_row_fallback_C9
    (d : HNode) (root : List Nat) (pat : Pat) (p : List Nat) (s : String)
    (tp : List Nat)
    (hfind : findUnder d root pat = some (p, s))
    (htr : ancestorTr d p.dropLast = some tp)
    (hne : ∃ t ∈ cellTexts d tp, t ≠ "")
    (hlast : ∀ i, i + 1 < (cellTexts d tp).length →
      pat.full ((cellTexts d tp).getD i "") = false) :
    ∃ t, (cellTexts d tp).reverse.find? (fun c => c != "") = some t ∧
      extract_value d root pat = .ok t := by
  have hcell : trNextCell (cellTexts d tp) pat = none := by
    unfold trNextCell
    rw [List.find?_eq_none.mpr]
    · rfl
    · intro i hi
      simp only [List.mem_range] at hi
      by_cases hlt : i + 1 < (cellTexts d tp).length
      · rw [hlast i hlt]
        simp
      · simp [hlt]
  have hfound : ((cellTexts d tp).reverse.find? (fun c => c != "")).isSome := by
    rw [List.find?_isSome]
    rcases hne with ⟨t, ht, hne⟩
    exact ⟨t, List.mem_reverse.mpr ht, by simp [hne]⟩
  rcases Option.isSome_iff_exists.mp hfound with ⟨t, ht⟩
  refine ⟨t, ht, ?_⟩
  unfold extract_value
  rw [hfind]
  simp only
  rw [htr]
  simp only
  rw [hcell, ht]

/-- C9 witness: a row whose only cell is the label "Type" makes the
extractor return the label text itself. -/
theorem extract_value_row_fallback_C9_w :
    extract_value demoRow [] typePat = .ok "Type" := by
  obtain ⟨t, hfind, hres⟩ := extract_value_row_fallback_C9 demoRow [] typePat
    [0, 0, 0, 0] "Type" [0, 0] (by decide) (by decide)
    ⟨"Type", by decide, by decide⟩
    (by
      intro i hi
      have hl : (cellTexts demoRow [0, 0]).length = 1 := by decide
      rw [hl] at hi
      omega)
  have ht : t = "Type" := by
    have : (cellTexts demoRow [0, 0]).reverse.find? (fun c => c != "") =
        some "Type" := by decide
    rw [this] at hfind
    cases hfind
    rfl
  rw [hres, ht]

end Immo
namespace Immo

/-- A successful ancestor walk stops at the first ancestor scoring ≥ 3,
within the fuel bound. -/
theorem climb_some (d : HNode) :
    ∀ f p r, climb d f p = some r →
      3 ≤ scoreAt d r ∧
      ∃ k, k < f ∧ r = iterDropLast k p ∧
        ∀ j < k, scoreAt d (iterDropLast j p) < 3 := by
  intro f
  induction f with
  | zero => intro p r h; cases h
  | succ f ih =>
    intro p r h
    unfold climb at h
    by_cases hs : 3 ≤ scoreAt d p
    · rw [if_pos hs] at h
      cases h
      exact ⟨hs, 0, Nat.succ_pos f, rfl, fun j hj => absurd hj (Nat.not_lt_zero j)⟩
    · rw [if_neg hs] at h
      by_cases hp : p = []
      · rw [if_pos hp] at h; cases h
      · rw [if_neg hp] at h
        obtain ⟨h3, k, hk, hr, hj⟩ := ih p.dropLast r h
        refine ⟨h3, k + 1, Nat.succ_lt_succ hk, hr, ?_⟩
        intro j hj2
        cases j with
        | zero => exact Nat.lt_of_not_le hs
        | succ j => exact hj j (Nat.lt_of_succ_lt_succ hj2)

/-- A successful header-pattern attempt comes from a match of the pattern
with a successful ancestor walk. -/
theorem caracFrom_some {d : HNode} {pred : String → Bool} {r : List Nat}
    (h : caracFrom d pred = some r) :
    ∃ p s, findStr d pred = some (p, s) ∧ p ≠ [] ∧
      climb d 7 p.dropLast = some r := by
  unfold caracFrom at h
  cases hf : findStr d pred with
  | none => rw [hf] at h; cases h
  | some q =>
    obtain ⟨p, s⟩ := q
    rw [hf] at h
    simp only at h
    by_cases hp : p = []
    · rw [if_pos hp] at h; cases h
    · rw [if_neg hp] at h; exact ⟨p, s, rfl, hp, h⟩

/-- A header-pattern attempt fails when the pattern does not match, or the
match is the root, or the walk fails. -/
theorem caracFrom_none {d : HNode} {pred : String → Bool}
    (h : ∀ p s, findStr d pred = some (p, s) →
      p = [] ∨ climb d 7 p.dropLast = none) :
    caracFrom d pred = none := by
  unfold caracFrom
  cases hf : findStr d pred with
  | none => rfl
  | some q =>
    obtain ⟨p, s⟩ := q
    simp only
    by_cases hp : p = []
    · rw [if_pos hp]
    · rw [if_neg hp]
      rcases h p s hf with hp2 | hc
      · exact absurd hp2 hp
      · exact hc

/-- C8: the characteristics-block locator walks at most 7 ancestor levels
from the (first) match of each header phrase, in pattern order, and returns
the first ancestor scoring at least 3 keywords; with no header-phrase match
(or no ancestor reaching the threshold) it returns the whole document
(path `[]`) — it is total and never raises. -/
theorem caracteristiques_spec_C8 (d : HNode) :
    (findStr d detailsSearch = none → findStr d caracSearch = none →
      caracteristiques d = [])
  ∧ ((∀ p s, findStr d detailsSearch = some (p, s) →
        p = [] ∨ climb d 7 p.dropLast = none) →
     (∀ p s, findStr d caracSearch = some (p, s) →
        p = [] ∨ climb d 7 p.dropLast = none) →
      caracteristiques d = [])
  ∧ (caracteristiques d ≠ [] →
      3 ≤ scoreAt d (caracteristiques d) ∧
      ∃ p s k, (findStr d detailsSearch = some (p, s) ∨
                findStr d caracSearch = some (p, s)) ∧
        k < 7 ∧ caracteristiques d = iterDropLast (k + 1) p ∧
        ∀ j < k, scoreAt d (iterDropLast (j + 1) p) < 3)
  ∧ (∀ p s r, findStr d detailsSearch = some (p, s) → p ≠ [] →
      climb d 7 p.dropLast = some r → caracteristiques d = r) := by
  refine ⟨?_, ?_, ?_, ?_⟩
  · intro h1 h2
    unfold caracteristiques
    rw [caracFrom_none (fun p s h => by rw [h1] at h; cases h),
      caracFrom_none (fun p s h => by rw [h2] at h; cases h)]
  · intro h1 h2
    unfold caracteristiques
    rw [caracFrom_none h1, caracFrom_none h2]
  · intro hne
    unfold caracteristiques at hne ⊢
    cases h1 : caracFrom d detailsSearch with
    | some r =>
      dsimp only
      obtain ⟨p, s, hf, hp, hc⟩ := caracFrom_some h1
      obtain ⟨h3, k, hk, hr, hj⟩ := climb_some d 7 p.dropLast r hc
      subst hr
      exact ⟨h3, p, s, k, Or.inl hf, hk, rfl, fun j hjk => hj j hjk⟩
    | none =>
      rw [h1] at hne
      dsimp only at hne ⊢
      cases h2 : caracFrom d caracSearch with
      | some r =>
        dsimp only
        obtain ⟨p, s, hf, hp, hc⟩ := caracFrom_some h2
        obtain ⟨h3, k, hk, hr, hj⟩ := climb_some d 7 p.dropLast r hc
        subst hr
        exact ⟨h3, p, s, k, Or.inr hf, hk, rfl, fun j hjk => hj j hjk⟩
      | none =>
        rw [h2] at hne
        exact absurd rfl hne
  · intro p s r hf hp hc
    unfold caracteristiques
    have h1 : caracFrom d detailsSearch = some r := by
      unfold caracFrom
      rw [hf]
      simp only
      rw [if_neg hp]
      exact hc
    rw [h1]

/-- C8 witness: in the demonstration characteristics document the locator
returns a nonempty path (the `div`, one level above the header's `h2`)
whose subtree scores at least 3 keywords. -/
theorem caracteristiques_spec_C8_w :
    3 ≤ scoreAt demoCarac (caracteristiques demoCarac) :=
  ((caracteristiques_spec_C8 demoCarac).2.2.1 (by decide)).1

end Immo
namespace Immo

/-- The step function of `extract_ad_urls` adds exactly the resolved URLs
of raw-matching hrefs. -/
theorem extract_ad_urls_foldl (u : String) :
    ∀ (l acc : List String) (x : String),
      (x ∈ l.foldl
        (fun acc h =>
          if adUrlSearch h then
            let v := urljoin u h
            if acc.contains v then acc else acc ++ [v]
          else acc) acc) ↔
      (x ∈ acc ∨ ∃ h ∈ l, adUrlSearch h = true ∧ x = urljoin u h) := by
  intro l
  induction l with
  | nil => intro acc x; simp
  | cons h t ih =>
    intro acc x
    rw [List.foldl_cons]
    by_cases hm : adUrlSearch h = true
    · rw [if_pos hm]
      by_cases hc : acc.contains (urljoin u h) = true
      · simp only [hc, if_pos]
        rw [ih]
        constructor
        · rintro (hx | hx)
          · exact Or.inl hx
          · exact Or.inr (by rcases hx with ⟨g, hg, h1, h2⟩; exact ⟨g, List.mem_cons_of_mem h hg, h1, h2⟩)
        · rintro (hx | ⟨g, hg, h1, h2⟩)
          · exact Or.inl hx
          · rcases List.mem_cons.mp hg with hgh | hgt
            · subst hgh
              subst h2
              exact Or.inl (List.mem_of_elem_eq_true hc)
            · exact Or.inr ⟨g, hgt, h1, h2⟩
      · simp only [hc, if_neg, Bool.false_eq_true, not_false_iff]
        rw [ih]
        constructor
        · rintro (hx | hx)
          · rcases List.mem_append.mp hx with hx | hx
            · exact Or.inl hx
            · exact Or.inr ⟨h, List.mem_cons_self h t, hm, (List.mem_singleton.mp hx)⟩
          · exact Or.inr (by rcases hx with ⟨g, hg, h1, h2⟩; exact ⟨g, List.mem_cons_of_mem h hg, h1, h2⟩)
        · rintro (hx | ⟨g, hg, h1, h2⟩)
          · exact Or.inl (List.mem_append.mpr (Or.inl hx))
          · rcases List.mem_cons.mp hg with hgh | hgt
            · subst hgh
              subst h2
              exact Or.inl (List.mem_append.mpr (Or.inr (List.mem_singleton.mpr rfl)))
            · exact Or.inr ⟨g, hgt, h1, h2⟩
    · rw [if_neg hm]
      rw [ih]
      constructor
      · rintro (hx | ⟨g, hg, h1, h2⟩)
        · exact Or.inl hx
        · exact Or.inr ⟨g, List.mem_cons_of_mem h hg, h1, h2⟩
      · rintro (hx | ⟨g, hg, h1, h2⟩)
        · exact Or.inl hx
        · rcases List.mem_cons.mp hg with hgh | hgt
          · subst hgh; exact absurd h1 hm
          · exact Or.inr ⟨g, hgt, h1, h2⟩

/-- C7 counterexample: a relative href `annonce-maison-paris/12345` whose
resolved path has the ad-detail shape is dropped by `extract_ad_urls`
(which filters on the raw href), while the spec's resolved-path contract
keeps it. -/
theorem extract_ad_urls_C7_cex :
    extract_ad_urls demoRelListing "https://example.com/" = [] ∧
    spec_discover_ad_links demoRelListing "https://example.com/" =
      ["https://example.com/annonce-maison-paris/12345"] ∧
    adUrlSearch (pathOf (urljoin "https://example.com/"
      "annonce-maison-paris/12345")) = true := by decide

/-- C7 amended: discovery scans all hyperlink elements and returns exactly
the resolved URLs of those whose RAW href contains a match of
`/annonce-<slug>/<numeric-id>` (the filter runs before resolution, on the
unresolved href). -/
theorem extract_ad_urls_spec_C7 (d : HNode) (u : String) :
    ∀ x, x ∈ extract_ad_urls d u ↔
      ∃ h ∈ hrefsOf d, adUrlSearch h = true ∧ x = urljoin u h := by
  intro x
  unfold extract_ad_urls
  rw [extract_ad_urls_foldl u (hrefsOf d) [] x]
  simp

end Immo
namespace Immo

/-- A successful `prix` value is a nonempty digit-only string (hence not
"-") of value at least 10000. -/
theorem prix_ok_shape {d : HNode} {p : String} (h : prix d = .ok p) :
    digitStr p ∧ p ≠ "-" ∧ 10000 ≤ digitsVal p.data := by
  unfold prix at h
  cases hf : find_price_text d with
  | none => rw [hf] at h; cases h
  | some t =>
    rw [hf] at h
    simp only at h
    by_cases h1 : digitsOnly (stripL t.data) = []
    · rw [if_pos h1] at h; cases h
    · rw [if_neg h1] at h
      by_cases h2 : digitsVal (digitsOnly (stripL t.data)) < 10000
      · rw [if_pos h2] at h; cases h
      · rw [if_neg h2] at h
        cases h
        have hdig : ∀ c ∈ digitsOnly (stripL t.data), c.isDigit = true := by
          intro c hc
          exact List.of_mem_filter hc
        refine ⟨⟨h1, hdig⟩, ?_, Nat.le_of_not_lt h2⟩
        intro hcon
        have : digitsOnly (stripL t.data) = ['-'] := congrArg String.data hcon
        have hd := hdig '-' (by rw [this]; exact List.mem_singleton.mpr rfl)
        cases hd

/-- `_digits_or_dash` yields "-" or a nonempty digit-only string. -/
theorem digits_or_dash_shape (v : String) : optDigit (digits_or_dash v) := by
  unfold digits_or_dash optDigit
  by_cases h1 : (clean v == "-" || clean v == "") = true
  · rw [if_pos h1]; exact Or.inl rfl
  · rw [if_neg h1]
    simp only
    by_cases h2 : digitsOnly (clean v).data = []
    · rw [if_pos h2]; exact Or.inl rfl
    · rw [if_neg h2]
      exact Or.inr ⟨h2, fun c hc => List.of_mem_filter hc⟩

/-- The optional numeric extractors yield "-" or digit strings. -/
theorem surface_shape (d : HNode) : optDigit (surface d) := by
  unfold surface
  cases extract_value d (caracteristiques d) surfacePat with
  | ok raw => exact digits_or_dash_shape raw
  | error e => exact Or.inl rfl

theorem nbrpieces_shape (d : HNode) : optDigit (nbrpieces d) := by
  unfold nbrpieces
  cases extract_value d (caracteristiques d) piecesPat with
  | ok raw => exact digits_or_dash_shape raw
  | error e => exact Or.inl rfl

theorem nbrchambres_shape (d : HNode) : optDigit (nbrchambres d) := by
  unfold nbrchambres
  cases extract_value d (caracteristiques d) chambresPat with
  | ok raw => exact digits_or_dash_shape raw
  | error e => exact Or.inl rfl

theorem nbrsdb_shape (d : HNode) : optDigit (nbrsdb d) := by
  unfold nbrsdb
  cases extract_value d (caracteristiques d) sdbPat with
  | ok raw => exact digits_or_dash_shape raw
  | error e => exact Or.inl rfl

/-- Every successful pipeline output is a valid record. -/
theorem informations_ok_valid {d : HNode} {r : List String}
    (h : informations_fields d = .ok r) : validRecord r := by
  unfold informations_fields at h
  cases hv : ville d with
  | error e => rw [hv] at h; cases h
  | ok v =>
    rw [hv] at h
    cases ht : type d with
    | error e => rw [ht] at h; cases h
    | ok t =>
      rw [ht] at h
      cases hp : prix d with
      | error e => rw [hp] at h; cases h
      | ok p =>
        rw [hp] at h
        cases h
        obtain ⟨hds, hdash, hval⟩ := prix_ok_shape hp
        exact ⟨v, t, _, _, _, _, _, p, rfl, type_ok_mem ht, hds, hdash, hval,
          surface_shape d, nbrpieces_shape d, nbrchambres_shape d, nbrsdb_shape d⟩

/-- `processAd` preserves "every row has a successful pipeline run". -/
theorem processAd_rows_inv (fetch : String → Option HNode) {st : CrawlState}
    (h : ∀ r ∈ st.rows, ∃ d, informations_fields d = .ok r) (u : String) :
    ∀ r ∈ (processAd fetch st u).rows, ∃ d, informations_fields d = .ok r := by
  unfold processAd
  by_cases hc : st.seen.contains u = true
  · rw [if_pos hc]; exact h
  · rw [if_neg hc]
    simp only
    cases hf : fetch u with
    | none => exact h
    | some doc =>
      simp only
      cases hi : informations_fields doc with
      | error e => exact h
      | ok row =>
        intro r hr
        rcases List.mem_append.mp hr with hr | hr
        · exact h r hr
        · rw [List.mem_singleton.mp hr]
          exact ⟨doc, hi⟩

/-- Folding `processAd` over a URL list preserves the rows invariant. -/
theorem foldl_rows_inv (fetch : String → Option HNode) :
    ∀ (l : List String) (st : CrawlState),
      (∀ r ∈ st.rows, ∃ d, informations_fields d = .ok r) →
      ∀ r ∈ (l.foldl (processAd fetch) st).rows,
        ∃ d, informations_fields d = .ok r := by
  intro l
  induction l with
  | nil => intro st h; exact h
  | cons u t ih =>
    intro st h
    rw [List.foldl_cons]
    exact ih (processAd fetch st u) (processAd_rows_inv fetch h u)

/-- The per-section loop preserves the rows invariant. -/
theorem section_rows_inv (fetch : String → Option HNode) :
    ∀ (fuel : Nat) (url : String) (st : CrawlState),
      (∀ r ∈ st.rows, ∃ d, informations_fields d = .ok r) →
      ∀ r ∈ (crawl_section fetch fuel url st).rows,
        ∃ d, informations_fields d = .ok r := by
  intro fuel
  induction fuel with
  | zero => intro url st h; exact h
  | succ fuel ih =>
    intro url st h
    unfold crawl_section
    cases fetch url with
    | none => exact h
    | some psoup =>
      simp only
      have h1 := foldl_rows_inv fetch (sortStrs (extract_ad_urls psoup url)) st h
      cases find_next_page_url psoup url with
      | none => exact h1
      | some nxt => exact ih nxt _ h1

/-- C5: every row the crawl controller writes to the sink is the output of
a fully successful pipeline run, hence a fully valid record (whitelisted
type, digit-only price ≥ 10000 that is never "-", numeric optional fields
digit-only or "-"); no partially-valid record is ever written. -/
theorem crawl_rows_valid_C5 (fetch : String → Option HNode) (n : Nat)
    (urls : List String) :
    ∀ r ∈ (scrape_idf_sales_to_csv fetch n urls).rows,
      validRecord r ∧ ∃ d, informations_fields d = .ok r := by
  have main : ∀ (l : List String) (st : CrawlState),
      (∀ r ∈ st.rows, ∃ d, informations_fields d = .ok r) →
      ∀ r ∈ (l.foldl (fun st u =>
          if st.aborted then st else crawl_section fetch n u st) st).rows,
        ∃ d, informations_fields d = .ok r := by
    intro l
    induction l with
    | nil => intro st h; exact h
    | cons u t ih =>
      intro st h
      rw [List.foldl_cons]
      by_cases ha : st.aborted = true
      · rw [if_pos ha]; exact ih st h
      · rw [if_neg ha]; exact ih _ (section_rows_inv fetch n u st h)
  intro r hr
  have hex := main urls initState (by intro r hr; cases hr) r hr
  exact ⟨by rcases hex with ⟨d, hd⟩; exact informations_ok_valid hd, hex⟩

/-- C5 witness: the record produced by the demonstration crawl is valid. -/
theorem crawl_rows_valid_C5_w :
    validRecord ["Paris", "Maison", "85", "-", "-", "-", "-", "250000"] :=
  (crawl_rows_valid_C5 demoFetch 5 ["https://s/p1"]
    ["Paris", "Maison", "85", "-", "-", "-", "-", "250000"] (by decide)).1

end Immo
namespace Immo

/-- `processAd` preserves the fetch-log invariant: logged ad fetches are
distinct and all logged URLs are in the visited set. -/
theorem processAd_fetch_inv (fetch : String → Option HNode) {st : CrawlState}
    (h : st.adFetches.Nodup ∧ ∀ x ∈ st.adFetches, x ∈ st.seen) (u : String) :
    (processAd fetch st u).adFetches.Nodup ∧
      ∀ x ∈ (processAd fetch st u).adFetches, x ∈ (processAd fetch st u).seen := by
  unfold processAd
  by_cases hc : st.seen.contains u = true
  · rw [if_pos hc]; exact h
  · rw [if_neg hc]
    simp only
    have hu : u ∉ st.seen := fun hmem => hc (List.elem_eq_true_of_mem hmem)
    have hnotf : u ∉ st.adFetches := fun hmem => hu (h.2 u hmem)
    have hnodup : (st.adFetches ++ [u]).Nodup := by
      rw [List.nodup_append]
      exact ⟨h.1, List.nodup_singleton u,
        by intro x hx hx2; rw [List.mem_singleton.mp hx2] at hx; exact hnotf hx⟩
    have hsub : ∀ x ∈ st.adFetches ++ [u], x ∈ u :: st.seen := by
      intro x hx
      rcases List.mem_append.mp hx with hx | hx
      · exact List.mem_cons_of_mem u (h.2 x hx)
      · rw [List.mem_singleton.mp hx]; exact List.mem_cons_self u st.seen
    cases fetch u with
    | none => exact ⟨hnodup, hsub⟩
    | some doc =>
      simp only
      cases informations_fields doc with
      | ok row => exact ⟨hnodup, hsub⟩
      | error e => exact ⟨hnodup, hsub⟩

/-- Folding `processAd` preserves the fetch-log invariant. -/
theorem foldl_fetch_inv (fetch : String → Option HNode) :
    ∀ (l : List String) (st : CrawlState),
      (st.adFetches.Nodup ∧ ∀ x ∈ st.adFetches, x ∈ st.seen) →
      ((l.foldl (processAd fetch) st).adFetches.Nodup ∧
       ∀ x ∈ (l.foldl (processAd fetch) st).adFetches,
         x ∈ (l.foldl (processAd fetch) st).seen) := by
  intro l
  induction l with
  | nil => intro st h; exact h
  | cons u t ih =>
    intro st h
    rw [List.foldl_cons]
    exact ih (processAd fetch st u) (processAd_fetch_inv fetch h u)

/-- The per-section loop preserves the fetch-log invariant. -/
theorem section_fetch_inv (fetch : String → Option HNode) :
    ∀ (fuel : Nat) (url : String) (st : CrawlState),
      (st.adFetches.Nodup ∧ ∀ x ∈ st.adFetches, x ∈ st.seen) →
      ((crawl_section fetch fuel url st).adFetches.Nodup ∧
       ∀ x ∈ (crawl_section fetch fuel url st).adFetches,
         x ∈ (crawl_section fetch fuel url st).seen) := by
  intro fuel
  induction fuel with
  | zero => intro url st h; exact h
  | succ fuel ih =>
    intro url st h
    unfold crawl_section
    cases fetch url with
    | none => exact h
    | some psoup =>
      simp only
      have h1 := foldl_fetch_inv fetch (sortStrs (extract_ad_urls psoup url)) st h
      cases find_next_page_url psoup url with
      | none => exact h1
      | some nxt => exact ih nxt _ h1

/-- C6: within one crawl run, across all start URLs and all pages, no ad
URL is ever fetched twice (the fetch log is duplicate-free), and an ad URL
already in the shared visited set is skipped without any state change — in
particular without a fetch. -/
theorem crawl_no_duplicate_fetch_C6 (fetch : String → Option HNode) (n : Nat)
    (urls : List String) :
    (scrape_idf_sales_to_csv fetch n urls).adFetches.Nodup
  ∧ (∀ st u, u ∈ st.seen → processAd fetch st u = st) := by
  constructor
  · have main : ∀ (l : List String) (st : CrawlState),
        (st.adFetches.Nodup ∧ ∀ x ∈ st.adFetches, x ∈ st.seen) →
        ((l.foldl (fun st u =>
            if st.aborted then st else crawl_section fetch n u st) st).adFetches.Nodup ∧
         ∀ x ∈ (l.foldl (fun st u =>
            if st.aborted then st else crawl_section fetch n u st) st).adFetches,
           x ∈ (l.foldl (fun st u =>
            if st.aborted then st else crawl_section fetch n u st) st).seen) := by
      intro l
      induction l with
      | nil => intro st h; exact h
      | cons u t ih =>
        intro st h
        rw [List.foldl_cons]
        by_cases ha : st.aborted = true
        · rw [if_pos ha]; exact ih st h
        · rw [if_neg ha]; exact ih _ (section_fetch_inv fetch n u st h)
    exact (main urls initState ⟨List.nodup_nil, by intro x hx; cases hx⟩).1
  · intro st u hu
    unfold processAd
    rw [if_pos (List.elem_eq_true_of_mem hu)]

/-- C6 witness: the demonstration listing links the same ad twice, yet the
run fetches it once; and a URL already seen leaves the state untouched. -/
theorem crawl_no_duplicate_fetch_C6_w :
    (scrape_idf_sales_to_csv demoFetch 5 ["https://s/p1"]).adFetches.Nodup ∧
    processAd demoFetch
      ⟨["https://s/annonce-a/1"], [], [], 1, 0, 1, false⟩
      "https://s/annonce-a/1" =
      ⟨["https://s/annonce-a/1"], [], [], 1, 0, 1, false⟩ :=
  ⟨(crawl_no_duplicate_fetch_C6 demoFetch 5 ["https://s/p1"]).1,
   (crawl_no_duplicate_fetch_C6 demoFetch 5 ["https://s/p1"]).2
     ⟨["https://s/annonce-a/1"], [], [], 1, 0, 1, false⟩
     "https://s/annonce-a/1" (by decide)⟩

end Immo
namespace Immo

/-- A `lastHit` result is a hit, and the largest one below the bound. -/
theorem lastHit_some {p : Nat → Bool} :
    ∀ {n i}, lastHit p n = some i →
      p i = true ∧ i < n ∧ ∀ j, i < j → j < n → p j = false := by
  intro n
  induction n with
  | zero => intro i h; cases h
  | succ n ih =>
    intro i h
    unfold lastHit at h
    by_cases hp : p n = true
    · rw [if_pos hp] at h
      cases h
      exact ⟨hp, Nat.lt_succ_self n, fun j h1 h2 => absurd h2 (Nat.not_lt.mpr h1)⟩
    · rw [if_neg hp] at h
      obtain ⟨h1, h2, h3⟩ := ih h
      refine ⟨h1, Nat.lt_succ_of_lt h2, ?_⟩
      intro j hj1 hj2
      rcases Nat.lt_succ_iff_lt_or_eq.mp hj2 with hj | hj
      · exact h3 j hj1 hj
      · subst hj; exact Bool.not_eq_true _ ▸ (Bool.eq_false_iff.mpr hp)

/-- `lastHit` misses only when there is no hit below the bound. -/
theorem lastHit_none {p : Nat → Bool} :
    ∀ {n}, lastHit p n = none → ∀ j < n, p j = false := by
  intro n
  induction n with
  | zero => intro _ j hj; cases hj
  | succ n ih =>
    intro h j hj
    unfold lastHit at h
    by_cases hp : p n = true
    · rw [if_pos hp] at h; cases h
    · rw [if_neg hp] at h
      rcases Nat.lt_succ_iff_lt_or_eq.mp hj with hj2 | hj2
      · exact ih h j hj2
      · subst hj2; exact Bool.eq_false_iff.mpr hp

/-- An occurrence beyond the end of the list is impossible. -/
theorem isPrefixAt_lt_length {cs : List Char} {i : Nat}
    (h : isPrefixAt [',', ' '] cs i = true) : i < cs.length := by
  by_contra hge
  unfold isPrefixAt at h
  rw [List.drop_eq_nil_of_le (Nat.le_of_not_lt hge)] at h
  cases h

/-- The last `", "` occurrence: it is an occurrence and no later position
is one. -/
theorem rfindCS_some {cs : List Char} {i : Nat} (h : rfindCS cs = some i) :
    isPrefixAt [',', ' '] cs i = true ∧
      ∀ j, i < j → isPrefixAt [',', ' '] cs j = false := by
  unfold rfindCS at h
  obtain ⟨h1, h2, h3⟩ := lastHit_some h
  refine ⟨h1, ?_⟩
  intro j hj
  by_cases hlen : j < cs.length
  · exact h3 j hj hlen
  · by_contra hx
    exact hlen (isPrefixAt_lt_length (Bool.of_not_eq_false hx))

/-- `rfind` misses only when there is no `", "` occurrence at all. -/
theorem rfindCS_none {cs : List Char} (h : rfindCS cs = none) :
    ∀ j, isPrefixAt [',', ' '] cs j = false := by
  intro j
  by_cases hlen : j < cs.length
  · exact lastHit_none h j hlen
  · by_contra hx
    exact hlen (isPrefixAt_lt_length (Bool.of_not_eq_false hx))

/-- A prefix occurrence decomposes the list. -/
theorem isPrefixOf_append {n : List Char} :
    ∀ {l : List Char}, n.isPrefixOf l = true → l = n ++ l.drop n.length := by
  induction n with
  | nil => intro l _; rfl
  | cons a n ih =>
    intro l h
    cases l with
    | nil => cases h
    | cons b l =>
      unfold List.isPrefixOf at h
      simp only [Bool.and_eq_true] at h
      obtain ⟨h1, h2⟩ := h
      have hb : a = b := eq_of_beq h1
      subst hb
      have := ih h2
      calc a :: l = a :: (n ++ l.drop n.length) := by rw [← this]
        _ = a :: n ++ (a :: l).drop (n.length + 1) := by simp

/-- In a string without two consecutive spaces, the character after a space
is not a space. -/
theorem noTwoSpaces_get? :
    ∀ {cs : List Char}, noTwoSpaces cs → ∀ j a b,
      cs.get? j = some a → cs.get? (j + 1) = some b → a = ' ' → b ≠ ' ' := by
  intro cs
  induction cs with
  | nil => intro _ j a b h; cases h
  | cons x t ih =>
    intro h j a b ha hb hsp
    cases t with
    | nil =>
      cases j with
      | zero => cases hb
      | succ j => cases hb
    | cons y t2 =>
      unfold noTwoSpaces at h
      cases j with
      | zero =>
        cases ha
        cases hb
        intro hy
        exact h.1 ⟨hsp, hy⟩
      | succ j =>
        exact ih h.2 j a b ha hb hsp

/-- `strip` is the identity on a string whose first and last characters are
not whitespace. -/
theorem stripL_noop {cs : List Char}
    (h1 : ∀ h, cs.head? = some h → stripWs h = false)
    (h2 : ∀ l, cs.getLast? = some l → stripWs l = false) :
    stripL cs = cs := by
  unfold stripL
  have hd : cs.dropWhile stripWs = cs := by
    cases hc : cs with
    | nil => rfl
    | cons a t =>
      rw [List.dropWhile_cons_of_neg]
      rw [h1 a (by rw [hc]; rfl)]
      exact Bool.false_ne_true
  rw [hd]
  have hrev : cs.reverse.dropWhile stripWs = cs.reverse := by
    cases hc : cs.reverse with
    | nil => rfl
    | cons a t =>
      rw [List.dropWhile_cons_of_neg]
      have : cs.getLast? = some a := by
        rw [← List.head?_reverse, hc]; rfl
      rw [h2 a this]
      exact Bool.false_ne_true
  rw [hrev, List.reverse_reverse]

end Immo
namespace Immo

/-- A character that survives `strip` is not a space. -/
theorem ne_space_of_stripWs_false {c : Char} (h : stripWs c = false) : c ≠ ' ' := by
  intro hc
  subst hc
  cases h

/-- The words produced by `split()` are nonempty and free of whitespace
(incl. the already-replaced U+00A0). -/
theorem wordsAux_shape :
    ∀ (cs acc : List Char), (∀ c ∈ acc, stripWs c = false) →
      (∀ c ∈ cs, c ≠ nbsp) →
      ∀ w ∈ wordsAux cs acc, w ≠ [] ∧ ∀ c ∈ w, stripWs c = false := by
  intro cs
  induction cs with
  | nil =>
    intro acc hacc _ w hw
    unfold wordsAux at hw
    by_cases ha : acc = []
    · rw [if_pos ha] at hw; cases hw
    · rw [if_neg ha] at hw
      rw [List.mem_singleton.mp hw]
      refine ⟨fun hx => ha (by simpa using congrArg List.reverse hx), ?_⟩
      intro c hc
      exact hacc c (List.mem_reverse.mp hc)
  | cons c cs ih =>
    intro acc hacc hcs w hw
    have hcs2 : ∀ x ∈ cs, x ≠ nbsp := fun x hx => hcs x (List.mem_cons_of_mem c hx)
    unfold wordsAux at hw
    by_cases hws : wsChar c = true
    · rw [if_pos hws] at hw
      by_cases ha : acc = []
      · rw [if_pos ha] at hw
        exact ih [] (by intro x hx; cases hx) hcs2 w hw
      · rw [if_neg ha] at hw
        rcases List.mem_cons.mp hw with hw | hw
        · rw [hw]
          refine ⟨fun hx => ha (by simpa using congrArg List.reverse hx), ?_⟩
          intro x hx
          exact hacc x (List.mem_reverse.mp hx)
        · exact ih [] (by intro x hx; cases hx) hcs2 w hw
    · rw [if_neg hws] at hw
      refine ih (c :: acc) ?_ hcs2 w hw
      intro x hx
      rcases List.mem_cons.mp hx with hx | hx
      · subst hx
        unfold stripWs
        rw [Bool.eq_false_iff.mpr hws]
        have : (x == nbsp) = false := beq_eq_false_iff_ne.mpr (hcs x (List.mem_cons_self x cs))
        rw [this]
        rfl
      · exact hacc x hx

/-- A join of nonempty words is nonempty. -/
theorem joinSp_ne :
    ∀ (ws : List (List Char)), (∀ w ∈ ws, w ≠ []) → ws ≠ [] → joinSp ws ≠ [] := by
  intro ws h hne
  cases ws with
  | nil => exact absurd rfl hne
  | cons w t =>
    cases t with
    | nil => exact h w (List.mem_singleton.mpr rfl)
    | cons w2 t2 =>
      show w ++ ' ' :: joinSp (w2 :: t2) ≠ []
      intro hx
      exact List.cons_ne_nil _ _ (List.append_eq_nil.mp hx).2

/-- The head of a join of clean words is a clean character. -/
theorem joinSp_head :
    ∀ (ws : List (List Char)),
      (∀ w ∈ ws, w ≠ [] ∧ ∀ c ∈ w, stripWs c = false) →
      ∀ h, (joinSp ws).head? = some h → stripWs h = false := by
  intro ws
  induction ws with
  | nil => intro _ h hx; cases hx
  | cons w t ih =>
    intro hws h hx
    obtain ⟨hne, hcs⟩ := hws w (List.mem_cons_self w t)
    cases hw : w with
    | nil => exact absurd hw hne
    | cons a w2 =>
      cases t with
      | nil =>
        rw [hw] at hx
        cases hx
        exact hcs h (by rw [hw]; exact List.mem_cons_self h w2)
      | cons x t2 =>
        have : (joinSp (w :: x :: t2)).head? = some a := by
          show (w ++ ' ' :: joinSp (x :: t2)).head? = some a
          rw [hw]
          rfl
        rw [this] at hx
        cases hx
        exact hcs h (by rw [hw]; exact List.mem_cons_self h w2)

/-- The last character of a join of clean words is a clean character. -/
theorem joinSp_last :
    ∀ (ws : List (List Char)),
      (∀ w ∈ ws, w ≠ [] ∧ ∀ c ∈ w, stripWs c = false) →
      ∀ l, (joinSp ws).getLast? = some l → stripWs l = false := by
  intro ws
  induction ws with
  | nil => intro _ l hx; cases hx
  | cons w t ih =>
    intro hws l hx
    obtain ⟨hne, hcs⟩ := hws w (List.mem_cons_self w t)
    have hws2 : ∀ w2 ∈ t, w2 ≠ [] ∧ ∀ c ∈ w2, stripWs c = false :=
      fun w2 hw2 => hws w2 (List.mem_cons_of_mem w hw2)
    cases t with
    | nil =>
      exact hcs l (List.mem_of_mem_getLast? hx)
    | cons x t2 =>
      have hnej : joinSp (x :: t2) ≠ [] :=
        joinSp_ne (x :: t2) (fun w2 hw2 => (hws2 w2 hw2).1) (List.cons_ne_nil x t2)
      have heq : (joinSp (w :: x :: t2)).getLast? = (joinSp (x :: t2)).getLast? := by
        show (w ++ ' ' :: joinSp (x :: t2)).getLast? = (joinSp (x :: t2)).getLast?
        rw [List.getLast?_append_of_ne_nil w (List.cons_ne_nil _ _)]
        cases hj : joinSp (x :: t2) with
        | nil => exact absurd hj hnej
        | cons b t3 => rfl
      rw [heq] at hx
      exact ih hws2 l hx

/-- Every character of the join is the separator or a clean character. -/
theorem joinSp_mem :
    ∀ (ws : List (List Char)),
      (∀ w ∈ ws, w ≠ [] ∧ ∀ c ∈ w, stripWs c = false) →
      ∀ c ∈ joinSp ws, c = ' ' ∨ stripWs c = false := by
  intro ws
  induction ws with
  | nil => intro _ c hc; cases hc
  | cons w t ih =>
    intro hws c hc
    obtain ⟨hne, hcs⟩ := hws w (List.mem_cons_self w t)
    have hws2 : ∀ w2 ∈ t, w2 ≠ [] ∧ ∀ c ∈ w2, stripWs c = false :=
      fun w2 hw2 => hws w2 (List.mem_cons_of_mem w hw2)
    cases t with
    | nil => exact Or.inr (hcs c hc)
    | cons x t2 =>
      have : c ∈ w ++ ' ' :: joinSp (x :: t2) := hc
      rcases List.mem_append.mp this with hm | hm
      · exact Or.inr (hcs c hm)
      · rcases List.mem_cons.mp hm with hm | hm
        · exact Or.inl hm
        · exact ih hws2 c hm

/-- Gluing a space-free block onto a two-space-free tail stays
two-space-free. -/
theorem noTwo_append :
    ∀ (w rest : List Char), (∀ c ∈ w, c ≠ ' ') → noTwoSpaces rest →
      noTwoSpaces (w ++ rest) := by
  intro w
  induction w with
  | nil => intro rest _ h; exact h
  | cons a w ih =>
    intro rest hw hrest
    have hw2 : ∀ c ∈ w, c ≠ ' ' := fun c hc => hw c (List.mem_cons_of_mem a hc)
    have hrec := ih rest hw2 hrest
    show noTwoSpaces (a :: (w ++ rest))
    cases hwr : w ++ rest with
    | nil => exact trivial
    | cons b t =>
      rw [hwr] at hrec
      exact ⟨fun hab => hw a (List.mem_cons_self a w) hab.1, hrec⟩

/-- The join of clean words has no two consecutive spaces. -/
theorem joinSp_noTwo :
    ∀ (ws : List (List Char)),
      (∀ w ∈ ws, w ≠ [] ∧ ∀ c ∈ w, stripWs c = false) →
      noTwoSpaces (joinSp ws) := by
  intro ws
  induction ws with
  | nil => intro _; exact trivial
  | cons w t ih =>
    intro hws
    obtain ⟨hne, hcs⟩ := hws w (List.mem_cons_self w t)
    have hws2 : ∀ w2 ∈ t, w2 ≠ [] ∧ ∀ c ∈ w2, stripWs c = false :=
      fun w2 hw2 => hws w2 (List.mem_cons_of_mem w hw2)
    have hwsp : ∀ c ∈ w, c ≠ ' ' := fun c hc => ne_space_of_stripWs_false (hcs c hc)
    cases t with
    | nil =>
      show noTwoSpaces (joinSp [w])
      have : joinSp [w] = w ++ [] := by simp [joinSp]
      rw [this]
      exact noTwo_append w [] hwsp trivial
    | cons x t2 =>
      show noTwoSpaces (w ++ ' ' :: joinSp (x :: t2))
      refine noTwo_append w (' ' :: joinSp (x :: t2)) hwsp ?_
      cases hj : joinSp (x :: t2) with
      | nil => exact trivial
      | cons b t3 =>
        have hb : stripWs b = false := by
          refine joinSp_head (x :: t2) hws2 b ?_
          rw [hj]
          rfl
        refine ⟨fun hab => ne_space_of_stripWs_false hb hab.2, ?_⟩
        rw [← hj]
        exact ih hws2

end Immo
namespace Immo

/-- The structural properties of `_clean` outputs: no two consecutive
spaces, every character a space or non-whitespace, non-whitespace first and
last characters. -/
theorem cleanL_props (cs : List Char) :
    noTwoSpaces (cleanL cs) ∧
    (∀ c ∈ cleanL cs, c = ' ' ∨ stripWs c = false) ∧
    (∀ h, (cleanL cs).head? = some h → stripWs h = false) ∧
    (∀ l, (cleanL cs).getLast? = some l → stripWs l = false) := by
  unfold cleanL
  have hmap : ∀ c ∈ cs.map (fun c => if c == nbsp then ' ' else c), c ≠ nbsp := by
    intro c hc
    rcases List.mem_map.mp hc with ⟨c0, _, hc0⟩
    by_cases hb : (c0 == nbsp) = true
    · rw [if_pos hb] at hc0
      rw [← hc0]
      decide
    · rw [if_neg hb] at hc0
      rw [← hc0]
      exact beq_eq_false_iff_ne.mp (Bool.eq_false_iff.mpr hb)
  have hws : ∀ w ∈ wordsL (cs.map (fun c => if c == nbsp then ' ' else c)),
      w ≠ [] ∧ ∀ c ∈ w, stripWs c = false := by
    intro w hw
    exact wordsAux_shape _ [] (by intro x hx; cases hx) hmap w hw
  exact ⟨joinSp_noTwo _ hws, joinSp_mem _ hws, joinSp_head _ hws, joinSp_last _ hws⟩

/-- Every `ville` candidate is a `_clean` output satisfying the filter. -/
theorem villeCandidates_mem {d : HNode} {t : String}
    (h : t ∈ villeCandidates d) :
    goodCand t = true ∧ ∃ s0 : String, t = clean s0 := by
  unfold villeCandidates at h
  have h2 := List.mem_of_mem_take h
  constructor
  · exact List.of_mem_filter h2
  · have h3 := List.mem_of_mem_filter h2
    rcases List.mem_map.mp h3 with ⟨q, _, hq⟩
    exact ⟨q.2, hq.symm⟩

/-- `chooseMin` picks an element of the list. -/
theorem chooseMin_mem : ∀ (rest : List String) (c : String),
    chooseMin c rest ∈ c :: rest := by
  intro rest
  induction rest with
  | nil => intro c; exact List.mem_singleton.mpr rfl
  | cons x t ih =>
    intro c
    unfold chooseMin at ih ⊢
    rw [List.foldl_cons]
    by_cases hx : x.length < c.length
    · rw [if_pos hx]
      rcases List.mem_cons.mp (ih x) with hm | hm
      · rw [hm]; exact List.mem_cons_of_mem c (List.mem_cons_self x t)
      · exact List.mem_cons_of_mem c (List.mem_cons_of_mem x hm)
    · rw [if_neg hx]
      rcases List.mem_cons.mp (ih c) with hm | hm
      · rw [hm]; exact List.mem_cons_self c (x :: t)
      · exact List.mem_cons_of_mem c (List.mem_cons_of_mem x hm)

/-- `chooseMin` has minimal length. -/
theorem chooseMin_le : ∀ (rest : List String) (c : String),
    ∀ x ∈ c :: rest, (chooseMin c rest).length ≤ x.length := by
  intro rest
  induction rest with
  | nil =>
    intro c x hx
    rw [List.mem_singleton.mp hx]
    exact Nat.le_refl _
  | cons y t ih =>
    intro c x hx
    unfold chooseMin at ih ⊢
    rw [List.foldl_cons]
    by_cases hy : y.length < c.length
    · rw [if_pos hy]
      rcases List.mem_cons.mp hx with hm | hm
      · rw [hm]
        exact Nat.le_trans (ih y y (List.mem_cons_self y t)) (Nat.le_of_lt hy)
      · rcases List.mem_cons.mp hm with hm2 | hm2
        · rw [hm2]; exact ih y y (List.mem_cons_self y t)
        · exact ih y x (List.mem_cons_of_mem y hm2)
    · rw [if_neg hy]
      rcases List.mem_cons.mp hx with hm | hm
      · rw [hm]; exact ih c c (List.mem_cons_self c t)
      · rcases List.mem_cons.mp hm with hm2 | hm2
        · rw [hm2]
          exact Nat.le_trans (ih c c (List.mem_cons_self c t)) (Nat.le_of_not_lt hy)
        · exact ih c x (List.mem_cons_of_mem c hm2)

end Immo
namespace Immo

/-- Dropping a prefix does not change the last element (when something
remains). -/
theorem getLast?_drop :
    ∀ (n : Nat) (l : List Char), l.drop n ≠ [] → (l.drop n).getLast? = l.getLast? := by
  intro n
  induction n with
  | zero => intro l _; rfl
  | succ n ih =>
    intro l h
    cases l with
    | nil => exact absurd rfl h
    | cons a t =>
      have hdrop : (a :: t).drop (n + 1) = t.drop n := rfl
      rw [hdrop] at h ⊢
      rw [ih t h]
      cases ht : t with
      | nil => rw [ht] at h; rw [List.drop_nil] at h; exact absurd rfl h
      | cons b t2 => rfl

/-- A successful `rfindCS` yields an interior occurrence in a cleaned
string: the following character exists and it and everything to the end
stay in place under `strip`. -/
theorem clean_suffix_facts {t : String} {s0 : String} {i : Nat}
    (hs0 : t = clean s0)
    (hpre : isPrefixAt [',', ' '] t.data i = true) :
    i + 1 < t.data.length ∧
    (t.data.length ≤ i + 2 → False) ∧
    stripL (t.data.drop (i + 2)) = t.data.drop (i + 2) := by
  have hdata : t.data = cleanL s0.data := by rw [hs0]; rfl
  obtain ⟨hnts, hmem, hhead, hlast⟩ := cleanL_props s0.data
  rw [← hdata] at hnts hmem hhead hlast
  unfold isPrefixAt at hpre
  have hdecomp := isPrefixOf_append hpre
  have hdrop2 : (t.data.drop i).drop 2 = t.data.drop (i + 2) := by
    rw [List.drop_drop]
  have hget1 : t.data.get? (i + 1) = some ' ' := by
    have h1 : (t.data.drop i).get? 1 = t.data.get? (i + 1) := List.get?_drop t.data i 1
    rw [← h1, hdecomp]
    rfl
  have hget0 : t.data.get? i = some ',' := by
    have h0 : (t.data.drop i).get? 0 = t.data.get? (i + 0) := List.get?_drop t.data i 0
    rw [Nat.add_zero] at h0
    rw [← h0, hdecomp]
    rfl
  have hlt : i + 1 < t.data.length := (List.get?_eq_some.mp hget1).1
  refine ⟨hlt, ?_, ?_⟩
  · intro hle
    have hlen : t.data.length = i + 2 := Nat.le_antisymm hle hlt
    have : t.data.getLast? = some ' ' := by
      rw [List.getLast?_eq_get?, hlen]
      exact hget1
    have := hlast ' ' this
    cases this
  · by_cases hemp : t.data.drop (i + 2) = []
    · rw [hemp]; rfl
    · refine stripL_noop ?_ ?_
      · intro h hh
        have h2 : (t.data.drop (i + 2)).get? 0 = t.data.get? (i + 2) := by
          rw [List.get?_drop]
        rw [List.get?_zero, hh] at h2
        have hne : h ≠ ' ' :=
          noTwoSpaces_get? hnts (i + 1) ' ' h hget1 h2.symm rfl
        rcases hmem h (List.get?_mem h2.symm) with hsp | hok
        · exact absurd hsp hne
        · exact hok
      · intro l hl
        rw [getLast?_drop (i + 2) t.data hemp] at hl
        exact hlast l hl

end Immo
namespace Immo

/-- C4: `ville` collects at most 10 visible candidates passing the
anti-JSON/URL and 3-comma filters, selects a candidate of minimal length,
and returns the substring strictly after the last `", "` of the selected
candidate; it fails exactly when no candidate qualifies or the chosen
candidate has no `", "` separator. -/
theorem ville_spec_C4 (d : HNode) :
    ((villeCandidates d).length ≤ 10)
  ∧ (∀ t ∈ villeCandidates d, goodCand t = true)
  ∧ (villeCandidates d ≠ [] →
      villeChosen d ∈ villeCandidates d ∧
      ∀ c ∈ villeCandidates d, (villeChosen d).length ≤ c.length)
  ∧ ((∃ e, ville d = .error e) ↔
      (villeCandidates d = [] ∨
       ∀ i, isPrefixAt [',', ' '] (villeChosen d).data i = false))
  ∧ (∀ s, ville d = .ok s →
      (∃ pre, (villeChosen d).data = pre ++ [',', ' '] ++ s.data) ∧
      ∀ i, isPrefixAt [',', ' '] s.data i = false) := by
  refine ⟨?_, ?_, ?_, ?_, ?_⟩
  · obtain ⟨l0, hl0⟩ : ∃ l0, villeCandidates d = List.take 10 l0 := ⟨_, rfl⟩
    rw [hl0]
    exact List.length_take_le 10 l0
  · intro t ht
    exact (villeCandidates_mem ht).1
  · intro hne
    unfold villeChosen
    cases hc : villeCandidates d with
    | nil => exact absurd hc hne
    | cons c rest =>
      dsimp only
      exact ⟨chooseMin_mem rest c, chooseMin_le rest c⟩
  · constructor
    · rintro ⟨e, he⟩
      unfold ville at he
      cases hc : villeCandidates d with
      | nil => exact Or.inl rfl
      | cons c rest =>
        rw [hc] at he
        dsimp only at he
        have hch : villeChosen d = chooseMin c rest := by
          unfold villeChosen; rw [hc]
        rw [hch]
        right
        cases hr : rfindCS (chooseMin c rest).data with
        | none => exact rfindCS_none hr
        | some i =>
          exfalso
          rw [hr] at he
          dsimp only at he
          have hmem : chooseMin c rest ∈ villeCandidates d := by
            rw [hc]; exact chooseMin_mem rest c
          obtain ⟨-, s0, hs0⟩ := villeCandidates_mem hmem
          obtain ⟨hlt, hnolen, hstrip⟩ :=
            clean_suffix_facts hs0 (rfindCS_some hr).1
          rw [if_neg (fun hx => hnolen hx)] at he
          cases he
    · rintro (hc | hall)
      · refine ⟨"Localisation introuvable (donc ville introuvable).", ?_⟩
        unfold ville
        rw [hc]
      · cases hc : villeCandidates d with
        | nil =>
          refine ⟨"Localisation introuvable (donc ville introuvable).", ?_⟩
          unfold ville
          rw [hc]
        | cons c rest =>
          have hch : villeChosen d = chooseMin c rest := by
            unfold villeChosen; rw [hc]
          rw [hch] at hall
          have hr : rfindCS (chooseMin c rest).data = none := by
            cases hr2 : rfindCS (chooseMin c rest).data with
            | none => rfl
            | some i =>
              have hx := (rfindCS_some hr2).1
              rw [hall i] at hx
              cases hx
          refine ⟨"Format de localisation inattendu", ?_⟩
          unfold ville
          rw [hc]
          dsimp only
          rw [hr]
  · intro s hs
    unfold ville at hs
    cases hc : villeCandidates d with
    | nil => rw [hc] at hs; cases hs
    | cons c rest =>
      rw [hc] at hs
      dsimp only at hs
      have hch : villeChosen d = chooseMin c rest := by
        unfold villeChosen; rw [hc]
      cases hr : rfindCS (chooseMin c rest).data with
      | none => rw [hr] at hs; cases hs
      | some i =>
        rw [hr] at hs
        dsimp only at hs
        have hmem : chooseMin c rest ∈ villeCandidates d := by
          rw [hc]; exact chooseMin_mem rest c
        obtain ⟨-, s0, hs0⟩ := villeCandidates_mem hmem
        obtain ⟨hlt, hnolen, hstrip⟩ :=
          clean_suffix_facts hs0 (rfindCS_some hr).1
        rw [if_neg (fun hx => hnolen hx)] at hs
        have hsval : s = pyStrip (String.mk ((chooseMin c rest).data.drop (i + 2))) := by
          cases hs
          rfl
        have hsdata : s.data = (chooseMin c rest).data.drop (i + 2) := by
          rw [hsval]
          show (String.mk (stripL (String.mk ((chooseMin c rest).data.drop (i + 2))).data)).data
            = (chooseMin c rest).data.drop (i + 2)
        
          exact congrArg id hstrip
        constructor
        · refine ⟨(chooseMin c rest).data.take i, ?_⟩
          rw [hch, hsdata]
          have hpre := (rfindCS_some hr).1
          unfold isPrefixAt at hpre
          have hdecomp : (chooseMin c rest).data.drop i =
              [',', ' '] ++ ((chooseMin c rest).data.drop i).drop 2 :=
            isPrefixOf_append hpre
          have hdrop2 : ((chooseMin c rest).data.drop i).drop 2 =
              (chooseMin c rest).data.drop (i + 2) := List.drop_drop 2 i _
          calc (chooseMin c rest).data
              = (chooseMin c rest).data.take i ++ (chooseMin c rest).data.drop i :=
                (List.take_append_drop i _).symm
            _ = (chooseMin c rest).data.take i ++ ([',', ' '] ++
                  ((chooseMin c rest).data.drop i).drop 2) := by rw [← hdecomp]
            _ = (chooseMin c rest).data.take i ++ [',', ' '] ++
                  (chooseMin c rest).data.drop (i + 2) := by rw [hdrop2, List.append_assoc]
        · intro k
          by_contra hx
          have hk : isPrefixAt [',', ' '] s.data k = true := Bool.of_not_eq_false hx
          unfold isPrefixAt at hk
          have hmax := (rfindCS_some hr).2 (i + 2 + k) (by omega)
          unfold isPrefixAt at hmax
          rw [← List.drop_drop, ← hsdata] at hmax
          rw [hmax] at hk
          cases hk

/-- C4 witness: for the candidate "A, B, C, France, Paris" the selected
city is the substring after the last `", "`. -/
theorem ville_spec_C4_w :
    (∃ pre, (villeChosen demoAd).data = pre ++ [',', ' '] ++ "Paris".data) ∧
    ∀ i, isPrefixAt [',', ' '] "Paris".data i = false :=
  (ville_spec_C4 demoAd).2.2.2.2 "Paris" (by decide)

end Immo
